import Mathlib

/-! GRT: a shallow embedding of `Neuron.cpp`, of the registry of `Regressifier.h`, and of the
timeseries buffer and the class label change filter, whose headers only declare them.

The C++ type `double` is embedded in two ways. The first reads it as an arbitrary
linearly ordered field `α` (instantiated with `ℚ` for evaluation and with `ℝ`, together
with `Real.exp`, for the analytic statements): exact arithmetic, without rounding,
infinities or NaN. The second, `Dbl α`, adds the range limits of `double` (overflow to an
infinity, NaN) and is the one used for the statements on the range of `fire`, which
overflow decides. Rounding of the mantissa is modelled in neither.
`std::vector<double>` is embedded as `List α`; an out-of-range `operator[]`
read (undefined behaviour in C++) makes the embedded function return `none`.
-/

namespace GRT

/-- Modelled from the spec: the activation-function selector enum is declared in `Neuron.h`,
which is not among the sources; the spec names its three kinds LINEAR, SIGMOID and
BIPOLAR_SIGMOID. They are numbered in that order, as C++ enumerators are. -/
def LINEAR : Nat := 0

/-- Modelled from the spec: the second activation kind of the enum in `Neuron.h`. -/
def SIGMOID : Nat := 1

/-- Modelled from the spec: the third activation kind of the enum in `Neuron.h`. -/
def BIPOLAR_SIGMOID : Nat := 2

/-- The interface of the `Random` member of a neuron, whose class is not among the sources:
`setSeed` and `getRandomNumberUniform(min, max)`, as pure functions on a generator state `R`. -/
structure RandomSource (R α : Type) where
  setSeed : R → Nat → R
  getRandomNumberUniform : R → α → α → α × R

/-- The fields of the C++ class `Neuron` that `Neuron.cpp` reads or writes. -/
structure Neuron (R α : Type) where
  numInputs : Nat
  activationFunction : Nat
  gamma : α
  bias : α
  previousBiasUpdate : α
  weights : List α
  previousUpdate : List α
  random : R

variable {R α : Type}

/-- The constructor `Neuron::Neuron()`: the two vectors and the generator are default
constructed (`r` is the default-constructed generator state). -/
def Neuron.ctor [LinearOrderedField α] (r : R) : Neuron R α :=
  { activationFunction := LINEAR
    numInputs := 0
    gamma := 2.0
    bias := 0
    previousBiasUpdate := 0
    weights := []
    previousUpdate := []
    random := r }

/-- The method `std::vector<double>::resize(n)`: keeps the first `n` elements and pads
with value-initialised (zero) elements. -/
def resize [Zero α] (v : List α) (n : Nat) : List α :=
  v.take n ++ List.replicate (n - v.length) 0

/-- One iteration of the loop of `Neuron::init`, at index `i`. -/
def Neuron.initStep [LinearOrderedField α] (rs : RandomSource R α) (s : Neuron R α) (i : Nat) :
    Neuron R α :=
  let d := rs.getRandomNumberUniform s.random (-0.1) 0.1
  { s with
    weights := s.weights.set i d.1
    previousUpdate := s.previousUpdate.set i 0
    random := d.2 }

/-- The method `Neuron::init(numInputs, activationFunction)`; `now` is the value of `time(NULL)`. -/
def Neuron.init [LinearOrderedField α] (rs : RandomSource R α) (now : Nat) (s : Neuron R α)
    (numInputs activationFunction : Nat) : Neuron R α :=
  let s1 : Neuron R α :=
    { s with
      numInputs := numInputs
      activationFunction := activationFunction
      weights := resize s.weights numInputs
      previousUpdate := resize s.previousUpdate numInputs
      random := rs.setSeed s.random now }
  let s2 := (List.range numInputs).foldl (Neuron.initStep rs) s1
  let d := rs.getRandomNumberUniform s2.random (-0.1) 0.1
  { s2 with
    bias := d.1
    random := d.2
    previousBiasUpdate := 0 }

/-- The method `Neuron::clear()`. -/
def Neuron.clear [LinearOrderedField α] (s : Neuron R α) : Neuron R α :=
  { s with
    numInputs := 0
    bias := 0
    previousBiasUpdate := 0
    weights := []
    previousUpdate := [] }

/-- One iteration of the loop of `Neuron::fire`: `y += inputs[i] * weights[i]`. -/
def Neuron.fireStep [LinearOrderedField α] (n : Neuron R α) (inputs : List α) (y : α) (i : Nat) :
    Option α := do
  let x ← inputs[i]?
  let w ← n.weights[i]?
  pure (y + x * w)

/-- The first half of `Neuron::fire`: the loop over `i < numInputs` followed by `y += bias`. -/
def Neuron.preActivation [LinearOrderedField α] (n : Neuron R α) (inputs : List α) : Option α := do
  let y ← (List.range n.numInputs).foldlM (n.fireStep inputs) 0
  pure (y + n.bias)

/-- The `switch` of `Neuron::fire`, applied to the pre-activation `y`; a selector value that
matches no `case` leaves `y` unchanged. -/
def Neuron.activate [LinearOrderedField α] (exp : α → α) (n : Neuron R α) (y : α) : α :=
  if n.activationFunction = LINEAR then y
  else if n.activationFunction = SIGMOID then
    if y < -45.0 then 0
    else if y > 45.0 then 1.0
    else 1.0 / (1.0 + exp (-y))
  else if n.activationFunction = BIPOLAR_SIGMOID then
    if y < -45.0 then 0
    else if y > 45.0 then 1.0
    else (2 / (1 + exp (-n.gamma * y))) - 1.0
  else y

/-- The method `Neuron::fire(inputs)`. -/
def Neuron.fire [LinearOrderedField α] (exp : α → α) (n : Neuron R α) (inputs : List α) :
    Option α :=
  (n.preActivation inputs).map (n.activate exp)

/-- The method `Neuron::der(y)`; a selector value that matches no `case` leaves `yy = 0`. -/
def Neuron.der [LinearOrderedField α] (n : Neuron R α) (y : α) : α :=
  if n.activationFunction = LINEAR then 1.0
  else if n.activationFunction = SIGMOID then y * (1.0 - y)
  else if n.activationFunction = BIPOLAR_SIGMOID then (n.gamma * (1.0 - (y * y))) / 2.0
  else 0

/-- The states reachable from the constructor by calls of `init` and `clear`. -/
inductive Neuron.Reachable [LinearOrderedField α] (rs : RandomSource R α) : Neuron R α → Prop
  | ctor (r : R) : Neuron.Reachable rs (Neuron.ctor r)
  | init (s : Neuron R α) (now numInputs activationFunction : Nat) :
      Neuron.Reachable rs s → Neuron.Reachable rs (Neuron.init rs now s numInputs activationFunction)
  | clear (s : Neuron R α) : Neuron.Reachable rs s → Neuron.Reachable rs (Neuron.clear s)

/-- The pre-activation in the words of the spec: `bias + Σ inputs[i]*weights[i]` over
`i < numInputs`; compared with the loop of the source in `Neuron.preActivation_eq`. -/
def Neuron.weightedSum [LinearOrderedField α] (n : Neuron R α) (inputs : List α) : α :=
  n.bias + ∑ i ∈ Finset.range n.numInputs, inputs.getD i 0 * n.weights.getD i 0

/-- The contract assumed of the generator: `getRandomNumberUniform(lo, hi)` returns a value
in `[lo, hi]` whenever `lo ≤ hi`. -/
def RandomSource.InRange [LinearOrderedField α] (rs : RandomSource R α) : Prop :=
  ∀ (r : R) (lo hi : α), lo ≤ hi →
    lo ≤ (rs.getRandomNumberUniform r lo hi).1 ∧ (rs.getRandomNumberUniform r lo hi).1 ≤ hi

/-- A generator that always returns the lower bound, used to evaluate `init` on examples. -/
def lowRandom : RandomSource Unit ℚ :=
  { setSeed := fun r _ => r
    getRandomNumberUniform := fun r lo _ => (lo, r) }

/-- A rational stand-in for `exp`, used only to evaluate the LINEAR path on examples. -/
def expStub (_ : ℚ) : ℚ := 1

/-- A neuron with two inputs, weights 3 and 4, bias 1, gamma 2 and the given activation
kind, used to evaluate `fire` and `der` on examples. -/
def sampleNeuron [LinearOrderedField α] (kind : Nat) : Neuron Unit α :=
  { numInputs := 2
    activationFunction := kind
    gamma := 2
    bias := 1
    previousBiasUpdate := 0
    weights := [3, 4]
    previousUpdate := [0, 0]
    random := () }

/-- The sample neuron as a LINEAR neuron over the rationals. -/
def sampleLinear : Neuron Unit ℚ := sampleNeuron LINEAR

/-- The sample neuron as a SIGMOID neuron over the rationals. -/
def sampleSigmoid : Neuron Unit ℚ := sampleNeuron SIGMOID

/-- The SIGMOID neuron with two inputs that `init` builds from a fresh neuron with the
generator `lowRandom`: both weights and the bias are `-0.1`. -/
def initSigmoid : Neuron Unit ℚ :=
  Neuron.init lowRandom 0 (Neuron.ctor ()) 2 SIGMOID

/-! ### The regressifier registry of `Regressifier.h` -/

/-- The type `StringRegressifierMap`, a `std::map` from the name of a regressifier to the
function that builds an instance (a value of `C`), as an association list read with
`List.lookup`; the key order that `std::map` keeps is not observable through lookups. -/
abbrev StringRegressifierMap (C : Type) := List (String × C)

/-- The library method `std::map::insert(pair)`: the pair is added only when the map holds no
element with the same key; otherwise the map is left as it is. -/
def StringRegressifierMap.insert {C : Type} (m : StringRegressifierMap C) (p : String × C) :
    StringRegressifierMap C :=
  match m.lookup p.1 with
  | some _ => m
  | none => p :: m

/-- The method `Regressifier::getMap()` on the static pointer `stringRegressifierMap`
(`none` is the null pointer): allocates an empty map when the pointer is null and returns the
map together with the new value of the pointer. -/
def Regressifier.getMap {C : Type} (stringRegressifierMap : Option (StringRegressifierMap C)) :
    StringRegressifierMap C × Option (StringRegressifierMap C) :=
  match stringRegressifierMap with
  | none => ([], some [])
  | some m => (m, some m)

/-- The constructor of `RegisterRegressifierModule<T>`, as a function on the static pointer:
`getMap()->insert(pair(name, &newRegressionModuleInstance<T>))`; `newInstance` stands for the
function pointer. -/
def RegisterRegressifierModule {C : Type} (stringRegressifierMap : Option (StringRegressifierMap C))
    (newRegresionModuleName : String) (newInstance : C) : Option (StringRegressifierMap C) :=
  some ((Regressifier.getMap stringRegressifierMap).1.insert (newRegresionModuleName, newInstance))

/-- The constructor a name is mapped to in the registry, if any; a null pointer maps no name. -/
def Regressifier.mapped {C : Type} (stringRegressifierMap : Option (StringRegressifierMap C))
    (name : String) : Option C :=
  match stringRegressifierMap with
  | none => none
  | some m => m.lookup name

/-- A registry with two registered names, the constructors being numbered. -/
def sampleRegistry : Option (StringRegressifierMap Nat) :=
  some [("LinearRegression", 1), ("MLP", 2)]

/-! ### The timeseries buffer of `TimeseriesBuffer.h` -/

/-- Modelled from the spec: the class `CircularBuffer` is not among the sources. The spec
describes it as a buffer of fixed capacity N that holds the N most recent samples in arrival
order, the oldest sample being overwritten on each insert once full; `items` lists the held
samples oldest first. -/
structure CircularBuffer (T : Type) where
  capacity : Nat
  items : List T

/-- Modelled from the spec: the insert of `CircularBuffer`, whose code is not among the
sources: the new sample is appended and only the `capacity` most recent samples are kept. -/
def CircularBuffer.push_back {T : Type} (b : CircularBuffer T) (x : T) : CircularBuffer T :=
  { b with items := (b.items ++ [x]).drop ((b.items ++ [x]).length - b.capacity) }

/-- The state of a `TimeseriesBuffer`: the members `bufferSize` and `dataBuffer` of the header
and the `initialized` flag and dimensionality of its base class. -/
structure TimeseriesBuffer (α : Type) where
  initialized : Bool
  numInputDimensions : Nat
  bufferSize : Nat
  dataBuffer : CircularBuffer (List α)

/-- Modelled from the spec: `TimeseriesBuffer::init(bufferSize, numDimensions)` is only declared
in the header. By the spec it requires `capacity > 0` and `dimensions > 0`, else it fails
(`none`); it allocates a buffer of `capacity` zero-filled samples of size `dimensions` and marks
the stage initialized. -/
def TimeseriesBuffer.init [Zero α] (_ : TimeseriesBuffer α) (bufferSize numDimensions : Nat) :
    Option (TimeseriesBuffer α) :=
  if bufferSize = 0 ∨ numDimensions = 0 then none
  else some
    { initialized := true
      numInputDimensions := numDimensions
      bufferSize := bufferSize
      dataBuffer :=
        { capacity := bufferSize
          items := List.replicate bufferSize (List.replicate numDimensions 0) } }

/-- Modelled from the spec: `TimeseriesBuffer::update(x)` is only declared in the header. By
the spec it requires the stage initialized and `len(sample) == dimensions`, inserts the sample
into the circular buffer and returns the flattened window, oldest sample first; when the stage
is not initialized or the length differs it returns an empty vector and leaves the state
unchanged. -/
def TimeseriesBuffer.update (b : TimeseriesBuffer α) (x : List α) :
    TimeseriesBuffer α × List α :=
  if b.initialized = false then (b, [])
  else if x.length ≠ b.numInputDimensions then (b, [])
  else
    let db := b.dataBuffer.push_back x
    ({ b with dataBuffer := db }, db.items.flatten)

/-- A sequence of `update` calls, one per sample; the second component is the vector returned
by the last call (empty when there was no call). -/
def TimeseriesBuffer.feed (b : TimeseriesBuffer α) (samples : List (List α)) :
    TimeseriesBuffer α × List α :=
  samples.foldl (fun p x => p.1.update x) (b, [])

/-- The block number `j` of a flattened vector of samples of size `dims`. -/
def block (dims : Nat) (v : List α) (j : Nat) : List α :=
  (v.drop (j * dims)).take dims

/-- An uninitialised timeseries buffer over the rationals, as left by a default construction
that has not yet called `init`. -/
def blankBuffer : TimeseriesBuffer ℚ :=
  { initialized := false
    numInputDimensions := 0
    bufferSize := 0
    dataBuffer := { capacity := 0, items := [] } }

/-! ### The class label change filter of `ClassLabelChangeFilter.h` -/

/-- The members `filteredClassLabel` and `labelChanged` of `ClassLabelChangeFilter`. -/
structure ClassLabelChangeFilter where
  filteredClassLabel : Nat
  labelChanged : Bool

/-- Modelled from the spec: `ClassLabelChangeFilter::init()` is only declared in the header;
a freshly initialised filter has seen no label, so it holds the null label 0 and no change. -/
def ClassLabelChangeFilter.init : ClassLabelChangeFilter :=
  { filteredClassLabel := 0
    labelChanged := false }

/-- Modelled from the spec: `ClassLabelChangeFilter::filter(predictedClassLabel)` is only
declared in the header, whose description says that the filter signals when the predicted output
of a classifier changes: a label that differs from the held one is stored and returned, any
other label gives 0. -/
def ClassLabelChangeFilter.filter (f : ClassLabelChangeFilter) (predictedClassLabel : Nat) :
    ClassLabelChangeFilter × Nat :=
  if predictedClassLabel ≠ f.filteredClassLabel then
    ({ filteredClassLabel := predictedClassLabel, labelChanged := true }, predictedClassLabel)
  else
    ({ f with labelChanged := false }, 0)

/-- The outputs of `filter` on a stream of labels fed one at a time. -/
def ClassLabelChangeFilter.filterStream (f : ClassLabelChangeFilter) : List Nat → List Nat
  | [] => []
  | l :: ls => (f.filter l).2 :: ClassLabelChangeFilter.filterStream (f.filter l).1 ls

/-! ### `fire` with the range limits of `double`

The definitions above read `double` as an exact number, which can neither overflow nor be
NaN. The range claims on `fire` depend on exactly that, so `fire` is embedded a second time
over `Dbl`, where a result beyond the largest finite `double` becomes an infinity and an
undefined operation gives NaN. Rounding of the mantissa is still not modelled. -/

/-- The values of a `double`: a finite number, plus infinity, minus infinity, or NaN. -/
inductive Dbl (α : Type) where
  | fin (x : α)
  | pinf
  | ninf
  | nan

/-- The largest finite `double`, `(2^53 - 1) * 2^971`. -/
def maxDouble [LinearOrderedField α] : α := (2 ^ 53 - 1) * 2 ^ 971

/-- The `double` that an exact result becomes: an infinity beyond the finite range. -/
def Dbl.ofExact [LinearOrderedField α] (x : α) : Dbl α :=
  if maxDouble < x then Dbl.pinf
  else if x < -maxDouble then Dbl.ninf
  else Dbl.fin x

/-- Unary minus on `double`. -/
def Dbl.neg [LinearOrderedField α] : Dbl α → Dbl α
  | Dbl.fin x => Dbl.fin (-x)
  | Dbl.pinf => Dbl.ninf
  | Dbl.ninf => Dbl.pinf
  | Dbl.nan => Dbl.nan

/-- Addition on `double`: opposite infinities add to NaN. -/
def Dbl.add [LinearOrderedField α] : Dbl α → Dbl α → Dbl α
  | Dbl.fin a, Dbl.fin b => Dbl.ofExact (a + b)
  | Dbl.fin _, Dbl.pinf => Dbl.pinf
  | Dbl.fin _, Dbl.ninf => Dbl.ninf
  | Dbl.fin _, Dbl.nan => Dbl.nan
  | Dbl.pinf, Dbl.fin _ => Dbl.pinf
  | Dbl.pinf, Dbl.pinf => Dbl.pinf
  | Dbl.pinf, Dbl.ninf => Dbl.nan
  | Dbl.pinf, Dbl.nan => Dbl.nan
  | Dbl.ninf, Dbl.fin _ => Dbl.ninf
  | Dbl.ninf, Dbl.pinf => Dbl.nan
  | Dbl.ninf, Dbl.ninf => Dbl.ninf
  | Dbl.ninf, Dbl.nan => Dbl.nan
  | Dbl.nan, _ => Dbl.nan

/-- Subtraction on `double`. -/
def Dbl.sub [LinearOrderedField α] (a b : Dbl α) : Dbl α := Dbl.add a (Dbl.neg b)

/-- The product of an infinity of the given sign with a finite number: zero times an
infinity is NaN, and a negative factor flips the sign. -/
def Dbl.infTimes [LinearOrderedField α] (positive : Bool) (b : α) : Dbl α :=
  if b = 0 then Dbl.nan
  else if 0 < b then (if positive then Dbl.pinf else Dbl.ninf)
  else (if positive then Dbl.ninf else Dbl.pinf)

/-- Multiplication on `double`. -/
def Dbl.mul [LinearOrderedField α] : Dbl α → Dbl α → Dbl α
  | Dbl.fin a, Dbl.fin b => Dbl.ofExact (a * b)
  | Dbl.fin a, Dbl.pinf => Dbl.infTimes true a
  | Dbl.fin a, Dbl.ninf => Dbl.infTimes false a
  | Dbl.fin _, Dbl.nan => Dbl.nan
  | Dbl.pinf, Dbl.fin b => Dbl.infTimes true b
  | Dbl.pinf, Dbl.pinf => Dbl.pinf
  | Dbl.pinf, Dbl.ninf => Dbl.ninf
  | Dbl.pinf, Dbl.nan => Dbl.nan
  | Dbl.ninf, Dbl.fin b => Dbl.infTimes false b
  | Dbl.ninf, Dbl.pinf => Dbl.ninf
  | Dbl.ninf, Dbl.ninf => Dbl.pinf
  | Dbl.ninf, Dbl.nan => Dbl.nan
  | Dbl.nan, _ => Dbl.nan

/-- Division on `double`; signed zeros are not modelled, a zero divisor is read as
positive zero. -/
def Dbl.div [LinearOrderedField α] : Dbl α → Dbl α → Dbl α
  | Dbl.fin a, Dbl.fin b =>
    if b = 0 then (if a = 0 then Dbl.nan else if 0 < a then Dbl.pinf else Dbl.ninf)
    else Dbl.ofExact (a / b)
  | Dbl.fin _, Dbl.pinf => Dbl.fin 0
  | Dbl.fin _, Dbl.ninf => Dbl.fin 0
  | Dbl.fin _, Dbl.nan => Dbl.nan
  | Dbl.pinf, Dbl.fin b => if 0 ≤ b then Dbl.pinf else Dbl.ninf
  | Dbl.ninf, Dbl.fin b => if 0 ≤ b then Dbl.ninf else Dbl.pinf
  | Dbl.pinf, Dbl.pinf => Dbl.nan
  | Dbl.pinf, Dbl.ninf => Dbl.nan
  | Dbl.pinf, Dbl.nan => Dbl.nan
  | Dbl.ninf, Dbl.pinf => Dbl.nan
  | Dbl.ninf, Dbl.ninf => Dbl.nan
  | Dbl.ninf, Dbl.nan => Dbl.nan
  | Dbl.nan, _ => Dbl.nan

/-- The comparison `a < b` on `double`: false as soon as one side is NaN. -/
def Dbl.lt [LinearOrderedField α] : Dbl α → Dbl α → Bool
  | Dbl.fin a, Dbl.fin b => decide (a < b)
  | Dbl.fin _, Dbl.pinf => true
  | Dbl.fin _, Dbl.ninf => false
  | Dbl.fin _, Dbl.nan => false
  | Dbl.pinf, _ => false
  | Dbl.ninf, Dbl.fin _ => true
  | Dbl.ninf, Dbl.pinf => true
  | Dbl.ninf, Dbl.ninf => false
  | Dbl.ninf, Dbl.nan => false
  | Dbl.nan, _ => false

/-- The library function `exp` on `double`, from an exponential `exp` on exact numbers. -/
def Dbl.exp [LinearOrderedField α] (exp : α → α) : Dbl α → Dbl α
  | Dbl.fin x => Dbl.ofExact (exp x)
  | Dbl.pinf => Dbl.pinf
  | Dbl.ninf => Dbl.fin 0
  | Dbl.nan => Dbl.nan

/-- Whether a `double` is finite. -/
def Dbl.isFinite : Dbl α → Bool
  | Dbl.fin _ => true
  | _ => false

/-- One iteration of the loop of `Neuron::fire` on `double`: `y += inputs[i] * weights[i]`. -/
def Neuron.fireStepD [LinearOrderedField α] (n : Neuron R (Dbl α)) (inputs : List (Dbl α))
    (y : Dbl α) (i : Nat) : Option (Dbl α) := do
  let x ← inputs[i]?
  let w ← n.weights[i]?
  pure (Dbl.add y (Dbl.mul x w))

/-- The first half of `Neuron::fire` on `double`: the loop over `i < numInputs` from
`y = 0`, followed by `y += bias`. -/
def Neuron.preActivationD [LinearOrderedField α] (n : Neuron R (Dbl α))
    (inputs : List (Dbl α)) : Option (Dbl α) := do
  let y ← (List.range n.numInputs).foldlM (n.fireStepD inputs) (Dbl.fin 0)
  pure (Dbl.add y n.bias)

/-- The `switch` of `Neuron::fire` on `double`, applied to the pre-activation `y`. -/
def Neuron.activateD [LinearOrderedField α] (exp : α → α) (n : Neuron R (Dbl α)) (y : Dbl α) :
    Dbl α :=
  if n.activationFunction = LINEAR then y
  else if n.activationFunction = SIGMOID then
    if Dbl.lt y (Dbl.fin (-45.0)) then Dbl.fin 0
    else if Dbl.lt (Dbl.fin 45.0) y then Dbl.fin 1.0
    else Dbl.div (Dbl.fin 1.0) (Dbl.add (Dbl.fin 1.0) (Dbl.exp exp (Dbl.neg y)))
  else if n.activationFunction = BIPOLAR_SIGMOID then
    if Dbl.lt y (Dbl.fin (-45.0)) then Dbl.fin 0
    else if Dbl.lt (Dbl.fin 45.0) y then Dbl.fin 1.0
    else Dbl.sub
      (Dbl.div (Dbl.fin 2) (Dbl.add (Dbl.fin 1) (Dbl.exp exp (Dbl.mul (Dbl.neg n.gamma) y))))
      (Dbl.fin 1.0)
  else y

/-- The method `Neuron::fire(inputs)` on `double`. -/
def Neuron.fireD [LinearOrderedField α] (exp : α → α) (n : Neuron R (Dbl α))
    (inputs : List (Dbl α)) : Option (Dbl α) :=
  (n.preActivationD inputs).map (n.activateD exp)

/-- A neuron with the finite weights `2^30` and `-2^30`, bias 0 and gamma 2, of the given
activation kind. -/
def steepNeuron [LinearOrderedField α] (kind : Nat) : Neuron Unit (Dbl α) :=
  { numInputs := 2
    activationFunction := kind
    gamma := Dbl.fin 2
    bias := Dbl.fin 0
    previousBiasUpdate := Dbl.fin 0
    weights := [Dbl.fin (2 ^ 30), Dbl.fin (-2 ^ 30)]
    previousUpdate := [Dbl.fin 0, Dbl.fin 0]
    random := () }

/-- The sample neuron (weights 3 and 4, bias 1, gamma 2) on `double`. -/
def sampleNeuronD [LinearOrderedField α] (kind : Nat) : Neuron Unit (Dbl α) :=
  { numInputs := 2
    activationFunction := kind
    gamma := Dbl.fin 2
    bias := Dbl.fin 1
    previousBiasUpdate := Dbl.fin 0
    weights := [Dbl.fin 3, Dbl.fin 4]
    previousUpdate := [Dbl.fin 0, Dbl.fin 0]
    random := () }

/-! ## The decimal constants of the source -/

theorem lit_one [LinearOrderedField α] : (1.0 : α) = 1 := by norm_num

theorem lit_two [LinearOrderedField α] : (2.0 : α) = 2 := by norm_num

theorem lit_fortyfive [LinearOrderedField α] : (45.0 : α) = 45 := by norm_num

/-! ## The loop of `fire` -/

theorem Neuron.fireLoop_eq [LinearOrderedField α] (n : Neuron R α) (inputs : List α) (k : Nat)
    (hi : k ≤ inputs.length) (hw : k ≤ n.weights.length) :
    (List.range k).foldlM (n.fireStep inputs) 0
      = some (∑ i ∈ Finset.range k, inputs.getD i 0 * n.weights.getD i 0) := by
  induction k with
  | zero => simp
  | succ k ih =>
    have hi1 : k < inputs.length := hi
    have hw1 : k < n.weights.length := hw
    rw [List.range_succ, List.foldlM_append, ih (Nat.le_of_lt hi1) (Nat.le_of_lt hw1)]
    simp [Neuron.fireStep, List.getElem?_eq_getElem hi1, List.getElem?_eq_getElem hw1,
      List.getD_eq_getElem _ _ hi1, List.getD_eq_getElem _ _ hw1, Finset.sum_range_succ]

theorem Neuron.preActivation_eq [LinearOrderedField α] (n : Neuron R α) (inputs : List α)
    (hi : n.numInputs ≤ inputs.length) (hw : n.numInputs ≤ n.weights.length) :
    n.preActivation inputs = some (n.weightedSum inputs) := by
  simp [Neuron.preActivation, Neuron.weightedSum, Neuron.fireLoop_eq n inputs n.numInputs hi hw,
    add_comm]

theorem Neuron.fire_eq [LinearOrderedField α] (exp : α → α) (n : Neuron R α) (inputs : List α)
    (hi : n.numInputs ≤ inputs.length) (hw : n.numInputs ≤ n.weights.length) :
    n.fire exp inputs = some (n.activate exp (n.weightedSum inputs)) := by
  simp [Neuron.fire, Neuron.preActivation_eq n inputs hi hw]

theorem Neuron.activate_linear [LinearOrderedField α] (exp : α → α) (n : Neuron R α) (y : α)
    (hk : n.activationFunction = LINEAR) : n.activate exp y = y := by
  simp [Neuron.activate, hk]

theorem Neuron.activate_sigmoid [LinearOrderedField α] (exp : α → α) (n : Neuron R α) (y : α)
    (hk : n.activationFunction = SIGMOID) :
    n.activate exp y
      = if y < -45 then 0 else if 45 < y then 1 else 1 / (1 + exp (-y)) := by
  simp [Neuron.activate, hk, SIGMOID, LINEAR, lit_one, lit_fortyfive]

theorem Neuron.activate_bipolar [LinearOrderedField α] (exp : α → α) (n : Neuron R α) (y : α)
    (hk : n.activationFunction = BIPOLAR_SIGMOID) :
    n.activate exp y
      = if y < -45 then 0 else if 45 < y then 1 else 2 / (1 + exp (-n.gamma * y)) - 1 := by
  simp [Neuron.activate, hk, BIPOLAR_SIGMOID, SIGMOID, LINEAR, lit_one, lit_fortyfive]

/-! ## The loop of `init` -/

theorem length_resize [Zero α] (v : List α) (n : Nat) : (resize v n).length = n := by
  simp only [resize, List.length_append, List.length_take, List.length_replicate]
  omega

theorem Neuron.initLoop_frame [LinearOrderedField α] (rs : RandomSource R α) (l : List Nat) :
    ∀ s : Neuron R α,
      (l.foldl (Neuron.initStep rs) s).numInputs = s.numInputs ∧
      (l.foldl (Neuron.initStep rs) s).activationFunction = s.activationFunction ∧
      (l.foldl (Neuron.initStep rs) s).gamma = s.gamma ∧
      (l.foldl (Neuron.initStep rs) s).bias = s.bias ∧
      (l.foldl (Neuron.initStep rs) s).previousBiasUpdate = s.previousBiasUpdate ∧
      (l.foldl (Neuron.initStep rs) s).weights.length = s.weights.length ∧
      (l.foldl (Neuron.initStep rs) s).previousUpdate.length = s.previousUpdate.length := by
  induction l with
  | nil => intro s; simp
  | cons i l ih =>
    intro s
    obtain ⟨h1, h2, h3, h4, h5, h6, h7⟩ := ih (Neuron.initStep rs s i)
    rw [List.foldl_cons, h1, h2, h3, h4, h5, h6, h7]
    simp [Neuron.initStep]

theorem Neuron.initLoop_values [LinearOrderedField α] (rs : RandomSource R α)
    (hrs : rs.InRange) (s : Neuron R α) (k : Nat) :
    (∀ i, i < k → ∀ w, ((List.range k).foldl (Neuron.initStep rs) s).weights[i]? = some w →
      -0.1 ≤ w ∧ w ≤ 0.1) ∧
    (∀ i, i < k → ∀ u, ((List.range k).foldl (Neuron.initStep rs) s).previousUpdate[i]? = some u →
      u = 0) := by
  induction k with
  | zero => exact ⟨fun i hi => absurd hi (Nat.not_lt_zero i), fun i hi => absurd hi (Nat.not_lt_zero i)⟩
  | succ k ih =>
    rw [List.range_succ, List.foldl_append]
    obtain ⟨ihw, ihu⟩ := ih
    have hb := hrs ((List.range k).foldl (Neuron.initStep rs) s).random (-0.1 : α) 0.1
      (by norm_num)
    constructor
    · intro i hi w hw
      simp only [List.foldl_cons, List.foldl_nil, Neuron.initStep, List.getElem?_set] at hw
      by_cases hik : k = i
      · rw [if_pos hik] at hw
        split at hw
        · cases hw
          exact hb
        · cases hw
      · rw [if_neg hik] at hw
        exact ihw i (by omega) w hw
    · intro i hi u hu
      simp only [List.foldl_cons, List.foldl_nil, Neuron.initStep, List.getElem?_set] at hu
      by_cases hik : k = i
      · rw [if_pos hik] at hu
        split at hu
        · cases hu
          rfl
        · cases hu
      · rw [if_neg hik] at hu
        exact ihu i (by omega) u hu

theorem Neuron.init_frame [LinearOrderedField α] (rs : RandomSource R α) (now : Nat)
    (s : Neuron R α) (numInputs activationFunction : Nat) :
    (Neuron.init rs now s numInputs activationFunction).numInputs = numInputs ∧
    (Neuron.init rs now s numInputs activationFunction).activationFunction = activationFunction ∧
    (Neuron.init rs now s numInputs activationFunction).gamma = s.gamma ∧
    (Neuron.init rs now s numInputs activationFunction).previousBiasUpdate = 0 ∧
    (Neuron.init rs now s numInputs activationFunction).weights.length = numInputs ∧
    (Neuron.init rs now s numInputs activationFunction).previousUpdate.length = numInputs := by
  simp only [Neuron.init]
  obtain ⟨h1, h2, h3, -, -, h6, h7⟩ := Neuron.initLoop_frame rs (List.range numInputs)
    ({ s with
      numInputs := numInputs
      activationFunction := activationFunction
      weights := resize s.weights numInputs
      previousUpdate := resize s.previousUpdate numInputs
      random := rs.setSeed s.random now } : Neuron R α)
  refine ⟨h1, h2, h3, trivial, ?_, ?_⟩
  · rw [h6]
    exact length_resize _ _
  · rw [h7]
    exact length_resize _ _

theorem Neuron.Reachable.gamma_eq [LinearOrderedField α] (rs : RandomSource R α)
    (s : Neuron R α) (h : Neuron.Reachable rs s) : s.gamma = 2 := by
  induction h with
  | ctor r => simp [Neuron.ctor, lit_two]
  | init s now numInputs activationFunction _ ih =>
    rw [(Neuron.init_frame rs now s numInputs activationFunction).2.2.1, ih]
  | clear s _ ih => simpa [Neuron.clear] using ih

theorem Neuron.Reachable.lengths [LinearOrderedField α] (rs : RandomSource R α)
    (s : Neuron R α) (h : Neuron.Reachable rs s) :
    s.weights.length = s.numInputs ∧ s.previousUpdate.length = s.numInputs := by
  induction h with
  | ctor r => simp [Neuron.ctor]
  | init s now numInputs activationFunction _ _ =>
    obtain ⟨h1, -, -, -, h5, h6⟩ := Neuron.init_frame rs now s numInputs activationFunction
    exact ⟨h5.trans h1.symm, h6.trans h1.symm⟩
  | clear s _ _ => simp [Neuron.clear]

/-! ## Evaluation of the sample neurons -/

theorem initSigmoid_weightedSum : initSigmoid.weightedSum [5, 6] = -6 / 5 := by
  simp [initSigmoid, Neuron.init, Neuron.initStep, lowRandom, List.range_succ, resize, Neuron.ctor,
    Neuron.weightedSum, Finset.sum_range_succ]
  norm_num

theorem initSigmoid_reachable : Neuron.Reachable lowRandom initSigmoid :=
  Neuron.Reachable.init _ 0 2 SIGMOID (Neuron.Reachable.ctor ())

theorem sampleNeuron_weightedSum_high [LinearOrderedField α] (kind : Nat) :
    (sampleNeuron kind : Neuron Unit α).weightedSum [5, 8] = 48 := by
  simp [sampleNeuron, Neuron.weightedSum, Finset.sum_range_succ]
  norm_num

theorem sampleNeuron_weightedSum_low [LinearOrderedField α] (kind : Nat) :
    (sampleNeuron kind : Neuron Unit α).weightedSum [-5, -8] = -46 := by
  simp [sampleNeuron, Neuron.weightedSum, Finset.sum_range_succ]
  norm_num

theorem lowRandom_inRange : lowRandom.InRange :=
  fun _ _ _ h => ⟨le_refl _, h⟩

/-! ## The derivative of the activation -/

theorem hasDerivAt_logistic (y : ℝ) :
    HasDerivAt (fun z : ℝ => 1 / (1 + Real.exp (-z)))
      (1 / (1 + Real.exp (-y)) * (1 - 1 / (1 + Real.exp (-y)))) y := by
  have he := Real.exp_pos (-y)
  have hpos : (1 + Real.exp (-y)) ≠ 0 := by linarith
  have h1 : HasDerivAt (fun z : ℝ => Real.exp (-z)) (Real.exp (-y) * (-1)) y :=
    (hasDerivAt_neg y).exp
  have h2 : HasDerivAt (fun z : ℝ => 1 + Real.exp (-z)) (Real.exp (-y) * (-1)) y :=
    h1.const_add 1
  have h3 := (hasDerivAt_const y (1 : ℝ)).div h2 hpos
  convert h3 using 1
  field_simp
  ring

theorem hasDerivAt_bipolar (g y : ℝ) :
    HasDerivAt (fun z : ℝ => 2 / (1 + Real.exp (-g * z)) - 1)
      (g * (1 - (2 / (1 + Real.exp (-g * y)) - 1) * (2 / (1 + Real.exp (-g * y)) - 1)) / 2) y := by
  have he := Real.exp_pos (-g * y)
  have hpos : (1 + Real.exp (-g * y)) ≠ 0 := by linarith
  have h0 : HasDerivAt (fun z : ℝ => -g * z) (-g) y := by
    simpa using (hasDerivAt_id y).const_mul (-g)
  have h1 : HasDerivAt (fun z : ℝ => Real.exp (-g * z)) (Real.exp (-g * y) * (-g)) y := h0.exp
  have h2 : HasDerivAt (fun z : ℝ => 1 + Real.exp (-g * z)) (Real.exp (-g * y) * (-g)) y :=
    h1.const_add 1
  have h3 := ((hasDerivAt_const y (2 : ℝ)).div h2 hpos).sub_const 1
  convert h3 using 1
  field_simp
  ring

/-! ## Claims -/

/-- C1: `der(y)` is 1 for LINEAR, `y*(1-y)` for SIGMOID and `gamma*(1-y*y)/2` for
BIPOLAR_SIGMOID, for every neuron state and every `y`; and for a SIGMOID neuron and every
input vector `x`, whenever `fire(x)` returns `v` then `der(v) = v*(1-v)`, and `fire(x)` does
return such a `v` when `x` and the weight vector have `numInputs` entries. -/
theorem Neuron.der_contract [LinearOrderedField α] (exp : α → α) (n : Neuron R α) (y : α) :
    (n.activationFunction = LINEAR → n.der y = 1) ∧
    (n.activationFunction = SIGMOID → n.der y = y * (1 - y)) ∧
    (n.activationFunction = BIPOLAR_SIGMOID → n.der y = n.gamma * (1 - y * y) / 2) ∧
    (n.activationFunction = SIGMOID →
      (∀ x v, n.fire exp x = some v → n.der v = v * (1 - v)) ∧
      (∀ x, x.length = n.numInputs → n.weights.length = n.numInputs →
        ∃ v, n.fire exp x = some v ∧ n.der v = v * (1 - v))) := by
  have hs : n.activationFunction = SIGMOID → ∀ v : α, n.der v = v * (1 - v) := by
    intro h v
    simp [Neuron.der, h, SIGMOID, LINEAR, lit_one]
  refine ⟨?_, ?_, ?_, ?_⟩
  · intro h
    simp [Neuron.der, h, lit_one]
  · intro h
    exact hs h y
  · intro h
    simp [Neuron.der, h, BIPOLAR_SIGMOID, SIGMOID, LINEAR, lit_one, lit_two]
  · intro h
    refine ⟨fun x v _ => hs h v, fun x hx hw => ?_⟩
    exact ⟨_, Neuron.fire_eq exp n x (le_of_eq hx.symm) (le_of_eq hw.symm), hs h _⟩

theorem Neuron.der_contract_witness :
    sampleSigmoid.activationFunction = SIGMOID ∧
    ([5, 6] : List ℚ).length = sampleSigmoid.numInputs ∧
    sampleSigmoid.weights.length = sampleSigmoid.numInputs ∧
    sampleSigmoid.der (1 / 2) = 1 / 2 * (1 - 1 / 2) ∧
    ∃ v, sampleSigmoid.fire expStub [5, 6] = some v ∧ sampleSigmoid.der v = v * (1 - v) :=
  ⟨rfl, rfl, rfl, (Neuron.der_contract expStub sampleSigmoid (1 / 2)).2.1 rfl,
    ((Neuron.der_contract expStub sampleSigmoid (1 / 2)).2.2.2 rfl).2 [5, 6] rfl rfl⟩

/-- C2: for a LINEAR neuron and an input vector with
`len(inputs) == numInputs == len(weights)`, `fire(inputs)` returns exactly
`bias + Σ_{i < numInputs} inputs[i]*weights[i]`, with no nonlinearity applied. -/
theorem Neuron.fire_linear [LinearOrderedField α] (exp : α → α) (n : Neuron R α)
    (inputs : List α) (hk : n.activationFunction = LINEAR)
    (hi : inputs.length = n.numInputs) (hw : n.weights.length = n.numInputs) :
    n.fire exp inputs
      = some (n.bias + ∑ i ∈ Finset.range n.numInputs, inputs.getD i 0 * n.weights.getD i 0) := by
  rw [Neuron.fire_eq exp n inputs (le_of_eq hi.symm) (le_of_eq hw.symm),
    Neuron.activate_linear exp n _ hk]
  rfl

theorem Neuron.fire_linear_witness :
    sampleLinear.activationFunction = LINEAR ∧
    ([5, 6] : List ℚ).length = sampleLinear.numInputs ∧
    sampleLinear.weights.length = sampleLinear.numInputs ∧
    sampleLinear.fire expStub [5, 6]
      = some (sampleLinear.bias + ∑ i ∈ Finset.range sampleLinear.numInputs,
          ([5, 6] : List ℚ).getD i 0 * sampleLinear.weights.getD i 0) :=
  ⟨rfl, rfl, rfl, Neuron.fire_linear expStub sampleLinear [5, 6] rfl rfl rfl⟩


/-- C3: for an input vector of length `numInputs` whose pre-activation
`y = bias + Σ inputs[i]*weights[i]` lies in `[-45, 45]`, `fire` returns `1/(1+exp(-y))` for a
SIGMOID neuron and `2/(1+exp(-gamma*y)) - 1` for a BIPOLAR_SIGMOID neuron; and `gamma` is 2.0
in every state built by the constructor (also after any calls of `init` and `clear`). -/
theorem Neuron.fire_inside_clamp [LinearOrderedField α] (exp : α → α) (n : Neuron R α)
    (inputs : List α) :
    (inputs.length = n.numInputs → n.weights.length = n.numInputs →
      -45 ≤ n.weightedSum inputs → n.weightedSum inputs ≤ 45 →
      (n.activationFunction = SIGMOID →
        n.fire exp inputs = some (1 / (1 + exp (-(n.weightedSum inputs))))) ∧
      (n.activationFunction = BIPOLAR_SIGMOID →
        n.fire exp inputs = some (2 / (1 + exp (-n.gamma * n.weightedSum inputs)) - 1))) ∧
    (∀ rs : RandomSource R α, Neuron.Reachable rs n → n.gamma = 2.0) := by
  refine ⟨fun hi hw hlo hhi => ?_, fun rs hr => ?_⟩
  · rw [Neuron.fire_eq exp n inputs (le_of_eq hi.symm) (le_of_eq hw.symm)]
    refine ⟨fun hk => ?_, fun hk => ?_⟩
    · rw [Neuron.activate_sigmoid exp n _ hk, if_neg (not_lt.mpr hlo), if_neg (not_lt.mpr hhi)]
    · rw [Neuron.activate_bipolar exp n _ hk, if_neg (not_lt.mpr hlo), if_neg (not_lt.mpr hhi)]
  · rw [Neuron.Reachable.gamma_eq rs n hr, lit_two]

theorem Neuron.fire_inside_clamp_witness :
    ([5, 6] : List ℚ).length = initSigmoid.numInputs ∧
    initSigmoid.weights.length = initSigmoid.numInputs ∧
    -45 ≤ initSigmoid.weightedSum [5, 6] ∧ initSigmoid.weightedSum [5, 6] ≤ 45 ∧
    initSigmoid.activationFunction = SIGMOID ∧
    Neuron.Reachable lowRandom initSigmoid ∧
    initSigmoid.fire expStub [5, 6] = some (1 / (1 + expStub (-(initSigmoid.weightedSum [5, 6])))) ∧
    initSigmoid.gamma = 2.0 :=
  have hi : ([5, 6] : List ℚ).length = initSigmoid.numInputs := by
    simp [initSigmoid, Neuron.init, Neuron.initStep, List.range_succ]
  have hw : initSigmoid.weights.length = initSigmoid.numInputs := by
    simp [initSigmoid, Neuron.init, Neuron.initStep, List.range_succ, resize, Neuron.ctor]
  have hlo : -45 ≤ initSigmoid.weightedSum [5, 6] := by
    rw [initSigmoid_weightedSum]; norm_num
  have hhi : initSigmoid.weightedSum [5, 6] ≤ 45 := by
    rw [initSigmoid_weightedSum]; norm_num
  have hk : initSigmoid.activationFunction = SIGMOID := by
    simp [initSigmoid, Neuron.init, Neuron.initStep, List.range_succ]
  ⟨hi, hw, hlo, hhi, hk, initSigmoid_reachable,
    ((Neuron.fire_inside_clamp expStub initSigmoid [5, 6]).1 hi hw hlo hhi).1 hk,
    (Neuron.fire_inside_clamp expStub initSigmoid [5, 6]).2 lowRandom initSigmoid_reachable⟩

/-- C6: for a SIGMOID neuron and an input vector of length `numInputs`, `fire` returns
exactly 0 when the pre-activation is below -45 and exactly 1 when it is above 45. -/
theorem Neuron.fire_sigmoid_saturates [LinearOrderedField α] (exp : α → α) (n : Neuron R α)
    (inputs : List α) (hk : n.activationFunction = SIGMOID)
    (hi : inputs.length = n.numInputs) (hw : n.weights.length = n.numInputs) :
    (n.weightedSum inputs < -45 → n.fire exp inputs = some 0) ∧
    (45 < n.weightedSum inputs → n.fire exp inputs = some 1) := by
  rw [Neuron.fire_eq exp n inputs (le_of_eq hi.symm) (le_of_eq hw.symm),
    Neuron.activate_sigmoid exp n _ hk]
  constructor
  · intro h
    rw [if_pos h]
  · intro h
    have h1 : ¬ n.weightedSum inputs < -45 := by
      intro h2
      have h3 : (-45 : α) < 45 := by norm_num
      exact lt_asymm h (lt_trans h2 h3)
    rw [if_neg h1, if_pos h]

theorem Neuron.fire_sigmoid_saturates_witness :
    (sampleNeuron SIGMOID : Neuron Unit ℝ).activationFunction = SIGMOID ∧
    ([5, 8] : List ℝ).length = (sampleNeuron SIGMOID : Neuron Unit ℝ).numInputs ∧
    (sampleNeuron SIGMOID : Neuron Unit ℝ).weights.length
      = (sampleNeuron SIGMOID : Neuron Unit ℝ).numInputs ∧
    (sampleNeuron SIGMOID : Neuron Unit ℝ).weightedSum [-5, -8] < -45 ∧
    45 < (sampleNeuron SIGMOID : Neuron Unit ℝ).weightedSum [5, 8] ∧
    (sampleNeuron SIGMOID : Neuron Unit ℝ).fire Real.exp [-5, -8] = some 0 ∧
    (sampleNeuron SIGMOID : Neuron Unit ℝ).fire Real.exp [5, 8] = some 1 :=
  have hlo : (sampleNeuron SIGMOID : Neuron Unit ℝ).weightedSum [-5, -8] < -45 := by
    rw [sampleNeuron_weightedSum_low]; norm_num
  have hhi : 45 < (sampleNeuron SIGMOID : Neuron Unit ℝ).weightedSum [5, 8] := by
    rw [sampleNeuron_weightedSum_high]; norm_num
  ⟨rfl, rfl, rfl, hlo, hhi,
    (Neuron.fire_sigmoid_saturates Real.exp (sampleNeuron SIGMOID) [-5, -8] rfl rfl rfl).1 hlo,
    (Neuron.fire_sigmoid_saturates Real.exp (sampleNeuron SIGMOID) [5, 8] rfl rfl rfl).2 hhi⟩

/-- C7: the BIPOLAR_SIGMOID sample neuron (weights 3 and 4, bias 1, gamma 2) on the inputs
`[-5, -8]` has the pre-activation -46, which is at most -45, and `fire` returns 0 there, which
is not the lower boundary value -1 of the output range. -/
theorem Neuron.fire_bipolar_below_clamp :
    ([-5, -8] : List ℝ).length = (sampleNeuron BIPOLAR_SIGMOID : Neuron Unit ℝ).numInputs ∧
    (sampleNeuron BIPOLAR_SIGMOID : Neuron Unit ℝ).weightedSum [-5, -8] = -46 ∧
    (sampleNeuron BIPOLAR_SIGMOID : Neuron Unit ℝ).fire Real.exp [-5, -8] = some 0 ∧
    (sampleNeuron BIPOLAR_SIGMOID : Neuron Unit ℝ).fire Real.exp [-5, -8] ≠ some (-1) := by
  have h : (sampleNeuron BIPOLAR_SIGMOID : Neuron Unit ℝ).fire Real.exp [-5, -8] = some 0 := by
    rw [Neuron.fire_eq Real.exp _ _ (le_of_eq rfl) (le_of_eq rfl),
      Neuron.activate_bipolar Real.exp _ _ rfl, sampleNeuron_weightedSum_low]
    norm_num
  refine ⟨rfl, sampleNeuron_weightedSum_low _, h, ?_⟩
  rw [h]
  norm_num

/-- C8: for each of the three activation kinds, with the activation viewed as a real function
of the pre-activation, at every `y` strictly inside `(-45, 45)` the activation is
differentiable and `der` applied to the activation at `y` is its derivative at `y`. -/
theorem Neuron.der_is_derivative (n : Neuron R ℝ) (y : ℝ) (hlo : -45 < y) (hhi : y < 45)
    (hk : n.activationFunction = LINEAR ∨ n.activationFunction = SIGMOID ∨
      n.activationFunction = BIPOLAR_SIGMOID) :
    DifferentiableAt ℝ (n.activate Real.exp) y ∧
    deriv (n.activate Real.exp) y = n.der (n.activate Real.exp y) := by
  have hnear : Set.Ioo (-45 : ℝ) 45 ∈ nhds y := Ioo_mem_nhds hlo hhi
  have key : HasDerivAt (n.activate Real.exp) (n.der (n.activate Real.exp y)) y := by
    rcases hk with hk | hk | hk
    · have hf : n.activate Real.exp = fun z => z := by
        funext z
        exact Neuron.activate_linear Real.exp n z hk
      have hd : n.der (n.activate Real.exp y) = 1 := by simp [Neuron.der, hk, lit_one]
      rw [hd, hf]
      exact hasDerivAt_id y
    · have hd : ∀ v : ℝ, n.der v = v * (1 - v) := by
        intro v
        simp [Neuron.der, hk, SIGMOID, LINEAR, lit_one]
      have hv : n.activate Real.exp y = 1 / (1 + Real.exp (-y)) := by
        rw [Neuron.activate_sigmoid Real.exp n y hk, if_neg (not_lt.mpr hlo.le),
          if_neg (not_lt.mpr hhi.le)]
      rw [hd, hv]
      refine (hasDerivAt_logistic y).congr_of_eventuallyEq ?_
      filter_upwards [hnear] with z hz
      rw [Neuron.activate_sigmoid Real.exp n z hk, if_neg (not_lt.mpr hz.1.le),
        if_neg (not_lt.mpr hz.2.le)]
    · have hd : ∀ v : ℝ, n.der v = n.gamma * (1 - v * v) / 2 := by
        intro v
        simp [Neuron.der, hk, BIPOLAR_SIGMOID, SIGMOID, LINEAR, lit_one, lit_two]
      have hv : n.activate Real.exp y = 2 / (1 + Real.exp (-n.gamma * y)) - 1 := by
        rw [Neuron.activate_bipolar Real.exp n y hk, if_neg (not_lt.mpr hlo.le),
          if_neg (not_lt.mpr hhi.le)]
      rw [hd, hv]
      refine (hasDerivAt_bipolar n.gamma y).congr_of_eventuallyEq ?_
      filter_upwards [hnear] with z hz
      rw [Neuron.activate_bipolar Real.exp n z hk, if_neg (not_lt.mpr hz.1.le),
        if_neg (not_lt.mpr hz.2.le)]
  exact ⟨key.differentiableAt, key.deriv⟩

theorem Neuron.der_is_derivative_witness :
    (-45 : ℝ) < 0 ∧ (0 : ℝ) < 45 ∧
    (sampleNeuron SIGMOID : Neuron Unit ℝ).activationFunction = SIGMOID ∧
    DifferentiableAt ℝ ((sampleNeuron SIGMOID : Neuron Unit ℝ).activate Real.exp) 0 ∧
    deriv ((sampleNeuron SIGMOID : Neuron Unit ℝ).activate Real.exp) 0
      = (sampleNeuron SIGMOID : Neuron Unit ℝ).der
          ((sampleNeuron SIGMOID : Neuron Unit ℝ).activate Real.exp 0) :=
  ⟨by norm_num, by norm_num, rfl,
    Neuron.der_is_derivative (sampleNeuron SIGMOID) 0 (by norm_num) (by norm_num)
      (Or.inr (Or.inl rfl))⟩

/-- C9: in every state reachable from the constructor by calls of `init(n, kind)` and
`clear()`, the weight vector and the momentum vector `previousUpdate` both have length
`numInputs`; in particular a further `init` with any `n` leaves both with length `n`. -/
theorem Neuron.length_invariant [LinearOrderedField α] (rs : RandomSource R α)
    (s : Neuron R α) (h : Neuron.Reachable rs s) :
    s.weights.length = s.numInputs ∧ s.previousUpdate.length = s.numInputs ∧
    ∀ now n kind : Nat,
      (Neuron.init rs now s n kind).numInputs = n ∧
      (Neuron.init rs now s n kind).weights.length = n ∧
      (Neuron.init rs now s n kind).previousUpdate.length = n := by
  refine ⟨(Neuron.Reachable.lengths rs s h).1, (Neuron.Reachable.lengths rs s h).2, ?_⟩
  intro now n kind
  obtain ⟨h1, -, -, -, h5, h6⟩ := Neuron.init_frame rs now s n kind
  exact ⟨h1, h5, h6⟩

theorem Neuron.length_invariant_witness :
    Neuron.Reachable lowRandom initSigmoid ∧
    initSigmoid.weights.length = initSigmoid.numInputs ∧
    initSigmoid.previousUpdate.length = initSigmoid.numInputs ∧
    (Neuron.init lowRandom 1 initSigmoid 5 LINEAR).weights.length = 5 ∧
    (Neuron.init lowRandom 1 initSigmoid.clear 1 LINEAR).previousUpdate.length = 1 :=
  ⟨initSigmoid_reachable,
    (Neuron.length_invariant lowRandom initSigmoid initSigmoid_reachable).1,
    (Neuron.length_invariant lowRandom initSigmoid initSigmoid_reachable).2.1,
    ((Neuron.length_invariant lowRandom initSigmoid initSigmoid_reachable).2.2 1 5 LINEAR).2.1,
    ((Neuron.length_invariant lowRandom initSigmoid.clear
      (Neuron.Reachable.clear _ initSigmoid_reachable)).2.2 1 1 LINEAR).2.2⟩

/-- C10: for every `numInputs`, activation kind and generator whose
`getRandomNumberUniform(lo, hi)` returns a value in `[lo, hi]`, after
`init(numInputs, kind)` on any neuron state there are exactly `numInputs` weights and momentum
terms, every weight and the bias lie in `[-0.1, 0.1]`, every `previousUpdate[i]` and
`previousBiasUpdate` are 0, and the stored `numInputs` and activation function are the
arguments. -/
theorem Neuron.init_contract [LinearOrderedField α] (rs : RandomSource R α) (hrs : rs.InRange)
    (now : Nat) (s : Neuron R α) (numInputs activationFunction : Nat) :
    (Neuron.init rs now s numInputs activationFunction).numInputs = numInputs ∧
    (Neuron.init rs now s numInputs activationFunction).activationFunction = activationFunction ∧
    (Neuron.init rs now s numInputs activationFunction).weights.length = numInputs ∧
    (∀ w ∈ (Neuron.init rs now s numInputs activationFunction).weights, -0.1 ≤ w ∧ w ≤ 0.1) ∧
    (-0.1 ≤ (Neuron.init rs now s numInputs activationFunction).bias ∧
      (Neuron.init rs now s numInputs activationFunction).bias ≤ 0.1) ∧
    (Neuron.init rs now s numInputs activationFunction).previousUpdate.length = numInputs ∧
    (∀ u ∈ (Neuron.init rs now s numInputs activationFunction).previousUpdate, u = 0) ∧
    (Neuron.init rs now s numInputs activationFunction).previousBiasUpdate = 0 := by
  obtain ⟨h1, h2, -, h4, h5, h6⟩ := Neuron.init_frame rs now s numInputs activationFunction
  refine ⟨h1, h2, h5, ?_, ?_, h6, ?_, h4⟩
  · intro w hw
    obtain ⟨i, hi⟩ := List.mem_iff_getElem?.mp hw
    obtain ⟨hlt, -⟩ := List.getElem?_eq_some.mp hi
    rw [h5] at hlt
    exact (Neuron.initLoop_values rs hrs _ numInputs).1 i hlt w hi
  · exact hrs _ (-0.1 : α) 0.1 (by norm_num)
  · intro u hu
    obtain ⟨i, hi⟩ := List.mem_iff_getElem?.mp hu
    obtain ⟨hlt, -⟩ := List.getElem?_eq_some.mp hi
    rw [h6] at hlt
    exact (Neuron.initLoop_values rs hrs _ numInputs).2 i hlt u hi

theorem Neuron.init_contract_witness :
    lowRandom.InRange ∧
    initSigmoid.numInputs = 2 ∧
    initSigmoid.activationFunction = SIGMOID ∧
    initSigmoid.weights.length = 2 ∧
    (∀ w ∈ initSigmoid.weights, -0.1 ≤ w ∧ w ≤ 0.1) ∧
    (-0.1 ≤ initSigmoid.bias ∧ initSigmoid.bias ≤ 0.1) ∧
    initSigmoid.previousUpdate.length = 2 ∧
    (∀ u ∈ initSigmoid.previousUpdate, u = 0) ∧
    initSigmoid.previousBiasUpdate = 0 :=
  ⟨lowRandom_inRange,
    Neuron.init_contract lowRandom lowRandom_inRange 0 (Neuron.ctor ()) 2 SIGMOID⟩



/-- C11: for every neuron state, `clear()` sets `numInputs` to 0 and leaves the weight vector
and the momentum vector empty, draws no random value (the generator state is unchanged), and
leaves the activation-function selector and `gamma` unchanged. -/
theorem Neuron.clear_frame [LinearOrderedField α] (s : Neuron R α) :
    (Neuron.clear s).numInputs = 0 ∧
    (Neuron.clear s).weights = [] ∧
    (Neuron.clear s).previousUpdate = [] ∧
    (Neuron.clear s).random = s.random ∧
    (Neuron.clear s).activationFunction = s.activationFunction ∧
    (Neuron.clear s).gamma = s.gamma :=
  ⟨rfl, rfl, rfl, rfl, rfl, rfl⟩

/-! ## The registry -/

theorem StringRegressifierMap.lookup_insert {C : Type} (m : StringRegressifierMap C)
    (name : String) (newInstance : C) (k : String) :
    (m.insert (name, newInstance)).lookup k
      = match m.lookup k with
        | some c => some c
        | none => if k = name then some newInstance else none := by
  unfold StringRegressifierMap.insert
  cases hn : m.lookup name with
  | some c0 =>
    simp only
    cases hk : m.lookup k with
    | some c => rfl
    | none =>
      have hne : k ≠ name := by
        intro h
        rw [h, hn] at hk
        cases hk
      simp [hne]
  | none =>
    simp only [List.lookup_cons]
    by_cases h : k = name
    · subst h
      simp [hn]
    · have hb : (k == name) = false := by simpa using h
      rw [hb]
      cases hk : m.lookup k <;> simp [h]

theorem Regressifier.mapped_register {C : Type} (st : Option (StringRegressifierMap C))
    (name : String) (newInstance : C) (k : String) :
    Regressifier.mapped (RegisterRegressifierModule st name newInstance) k
      = match Regressifier.mapped st k with
        | some c => some c
        | none => if k = name then some newInstance else none := by
  cases st with
  | none =>
    simp [Regressifier.mapped, RegisterRegressifierModule, Regressifier.getMap,
      StringRegressifierMap.lookup_insert]
  | some m =>
    simp [Regressifier.mapped, RegisterRegressifierModule, Regressifier.getMap,
      StringRegressifierMap.lookup_insert]

/-- C12: registration never removes or replaces an entry: for every state of the lazily
created shared map (null or a map `m`) and every `(name, ctor)`, after
`RegisterRegressifierModule` every name that was mapped is still mapped to the same
constructor, and `name` itself is mapped, to `ctor` if it was absent before and to its previous
constructor if it was already registered. -/
theorem Regressifier.register_preserves {C : Type} (st : Option (StringRegressifierMap C))
    (name : String) (newInstance : C) :
    (∀ k c, Regressifier.mapped st k = some c →
      Regressifier.mapped (RegisterRegressifierModule st name newInstance) k = some c) ∧
    (Regressifier.mapped st name = none →
      Regressifier.mapped (RegisterRegressifierModule st name newInstance) name
        = some newInstance) ∧
    (∀ c, Regressifier.mapped st name = some c →
      Regressifier.mapped (RegisterRegressifierModule st name newInstance) name = some c) := by
  refine ⟨fun k c h => ?_, fun h => ?_, fun c h => ?_⟩
  · rw [Regressifier.mapped_register, h]
  · rw [Regressifier.mapped_register, h]
    simp
  · rw [Regressifier.mapped_register, h]

theorem Regressifier.register_preserves_witness :
    Regressifier.mapped sampleRegistry "MLP" = some 2 ∧
    Regressifier.mapped sampleRegistry "KNN" = none ∧
    Regressifier.mapped (RegisterRegressifierModule sampleRegistry "KNN" 7) "MLP" = some 2 ∧
    Regressifier.mapped (RegisterRegressifierModule sampleRegistry "KNN" 7) "KNN" = some 7 ∧
    Regressifier.mapped (RegisterRegressifierModule sampleRegistry "MLP" 7) "MLP" = some 2 :=
  ⟨by decide, by decide,
    (Regressifier.register_preserves sampleRegistry "KNN" 7).1 "MLP" 2 (by decide),
    (Regressifier.register_preserves sampleRegistry "KNN" 7).2.1 (by decide),
    (Regressifier.register_preserves sampleRegistry "MLP" 7).2.2 2 (by decide)⟩

/-! ## The window of the timeseries buffer -/

theorem drop_keep_append {T : Type} (c : Nat) (l xs : List T) :
    (l.drop (l.length - c) ++ xs).drop ((l.drop (l.length - c) ++ xs).length - c)
      = (l ++ xs).drop ((l ++ xs).length - c) := by
  by_cases h : l.length ≤ c
  · have h0 : l.length - c = 0 := by omega
    simp [h0]
  · have hk : l.length - c ≤ l.length := by omega
    have e1 : (l.drop (l.length - c) ++ xs).length - c = xs.length := by
      simp only [List.length_append, List.length_drop]
      omega
    have e2 : (l ++ xs).length - c = (l.length - c) + xs.length := by
      simp only [List.length_append]
      omega
    rw [e1, e2, ← List.drop_drop, List.drop_append_of_le_length hk]

theorem TimeseriesBuffer.update_ok (b : TimeseriesBuffer α) (x : List α)
    (hi : b.initialized = true) (hx : x.length = b.numInputDimensions) :
    b.update x
      = ({ b with dataBuffer := b.dataBuffer.push_back x },
          (b.dataBuffer.push_back x).items.flatten) := by
  simp [TimeseriesBuffer.update, hi, hx]

theorem TimeseriesBuffer.foldl_update (xs : List (List α)) :
    ∀ (b : TimeseriesBuffer α) (out : List α) (x : List α),
      b.initialized = true → (∀ s ∈ x :: xs, s.length = b.numInputDimensions) →
      ((x :: xs).foldl (fun p s => p.1.update s) (b, out)).2
        = ((b.dataBuffer.items ++ x :: xs).drop
            ((b.dataBuffer.items ++ x :: xs).length - b.dataBuffer.capacity)).flatten := by
  induction xs with
  | nil =>
    intro b out x hi hlen
    have hx : x.length = b.numInputDimensions := hlen x (List.mem_cons_self x [])
    simp [TimeseriesBuffer.update_ok b x hi hx, CircularBuffer.push_back]
  | cons y ys ih =>
    intro b out x hi hlen
    have hx : x.length = b.numInputDimensions := hlen x (List.mem_cons_self x _)
    have hrest : ∀ s ∈ y :: ys, s.length = b.numInputDimensions :=
      fun s hs => hlen s (List.mem_cons_of_mem x hs)
    rw [List.foldl_cons, TimeseriesBuffer.update_ok b x hi hx]
    rw [ih { b with dataBuffer := b.dataBuffer.push_back x } _ y hi hrest]
    simp only [CircularBuffer.push_back]
    rw [drop_keep_append]
    simp

theorem block_flatten (d : Nat) (w : List (List α)) :
    ∀ j, (∀ s ∈ w, s.length = d) → j < w.length → w[j]? = some (block d w.flatten j) := by
  induction w with
  | nil => intro j _ hj; exact absurd hj (Nat.not_lt_zero j)
  | cons h t ih =>
    intro j hlen hj
    have hh : h.length = d := hlen h (List.mem_cons_self h t)
    cases j with
    | zero => simp [block, List.take_left' hh]
    | succ k =>
      have hk : k < t.length := Nat.lt_of_succ_lt_succ hj
      have ht : ∀ s ∈ t, s.length = d := fun s hs => hlen s (List.mem_cons_of_mem h hs)
      have e : (k + 1) * d = h.length + k * d := by rw [hh]; ring
      have hb : block d (h :: t).flatten (k + 1) = block d t.flatten k := by
        simp only [block, List.flatten_cons, e, List.drop_append]
      rw [hb, List.getElem?_cons_succ]
      exact ih k ht hk

/-- C13: for every `capacity > 0` and `dims > 0`, every initialised timeseries buffer of that
capacity and dimensionality (`init` produces one from any state) and every sequence of
`N > capacity` samples of length `dims` fed via `update`, the vector returned by the last
`update` is the concatenation of exactly the last `capacity` samples in arrival order, oldest
first; and when the samples are pairwise distinct, none of the first `N - capacity` samples is
a block of it. -/
theorem TimeseriesBuffer.fifo_window [Zero α] (b0 b : TimeseriesBuffer α) (capacity dims : Nat)
    (samples : List (List α)) (hc : 0 < capacity) (hd : 0 < dims)
    (hinit : b.initialized = true) (hdims : b.numInputDimensions = dims)
    (hcap : b.dataBuffer.capacity = capacity)
    (hlen : ∀ s ∈ samples, s.length = dims) (hN : capacity < samples.length) :
    (∃ b1, b0.init capacity dims = some b1 ∧ b1.initialized = true ∧
      b1.numInputDimensions = dims ∧ b1.dataBuffer.capacity = capacity) ∧
    (b.feed samples).2 = (samples.drop (samples.length - capacity)).flatten ∧
    (samples.Nodup → ∀ i j, i < samples.length - capacity → j < capacity →
      samples[i]? ≠ some (block dims (b.feed samples).2 j)) := by
  have hout : (b.feed samples).2 = (samples.drop (samples.length - capacity)).flatten := by
    cases samples with
    | nil => exact absurd hN (Nat.not_lt_zero _)
    | cons x xs =>
      rw [TimeseriesBuffer.feed,
        TimeseriesBuffer.foldl_update xs b [] x hinit (by rw [hdims]; exact hlen), hcap]
      have e : (b.dataBuffer.items ++ x :: xs).length - capacity
          = b.dataBuffer.items.length + ((x :: xs).length - capacity) := by
        simp only [List.length_append]
        omega
      rw [e, List.drop_append]
  refine ⟨?_, hout, ?_⟩
  · refine ⟨_, if_neg (by omega), rfl, rfl, rfl⟩
  · intro hnd i j hi hj
    have hwlen : ∀ s ∈ samples.drop (samples.length - capacity), s.length = dims :=
      fun s hs => hlen s (List.mem_of_mem_drop hs)
    have hjlen : j < (samples.drop (samples.length - capacity)).length := by
      rw [List.length_drop]
      omega
    have hblock := block_flatten dims (samples.drop (samples.length - capacity)) j hwlen hjlen
    rw [hout, ← hblock, List.getElem?_drop]
    exact (List.nodup_iff_getElem?_ne_getElem?.mp hnd) i (samples.length - capacity + j)
      (by omega) (by omega)

theorem TimeseriesBuffer.fifo_window_witness :
    ∃ b, blankBuffer.init 3 1 = some b ∧
      (b.feed [[1], [2], [3], [4]]).2 = [2, 3, 4] ∧
      ([[1], [2], [3], [4]] : List (List ℚ))[0]? ≠ some (block 1 (b.feed [[1], [2], [3], [4]]).2 0) :=
  ⟨{ initialized := true
     numInputDimensions := 1
     bufferSize := 3
     dataBuffer := { capacity := 3, items := [[0], [0], [0]] } },
    rfl,
    (TimeseriesBuffer.fifo_window blankBuffer _ 3 1 [[1], [2], [3], [4]] (by decide) (by decide)
      rfl rfl rfl (by simp) (by decide)).2.1,
    (TimeseriesBuffer.fifo_window blankBuffer _ 3 1 [[1], [2], [3], [4]] (by decide) (by decide)
      rfl rfl rfl (by simp) (by decide)).2.2 (by simp) 0 0 (by decide) (by decide)⟩

/-- C13, as stated for every sequence: with `capacity = 1`, `dims = 1` and the samples `1, 1`
(so `N = 2 > capacity`), the second `update` returns `[1]`, and the first sample, which is one
of the first `N - capacity = 1` samples, is the block 0 of it. -/
theorem TimeseriesBuffer.fifo_window_repeated :
    ∃ b, blankBuffer.init 1 1 = some b ∧
      (∀ s ∈ ([[1], [1]] : List (List ℚ)), s.length = 1) ∧
      1 < ([[1], [1]] : List (List ℚ)).length ∧
      (b.feed [[1], [1]]).2 = [1] ∧
      0 < ([[1], [1]] : List (List ℚ)).length - 1 ∧
      ([[1], [1]] : List (List ℚ))[0]? = some (block 1 (b.feed [[1], [1]]).2 0) :=
  ⟨{ initialized := true
     numInputDimensions := 1
     bufferSize := 1
     dataBuffer := { capacity := 1, items := [[0]] } },
    rfl, by simp, by decide, rfl, by decide, rfl⟩

/-! ## The class label change filter -/

theorem ClassLabelChangeFilter.filter_label (f : ClassLabelChangeFilter) (l : Nat) :
    (f.filter l).1.filteredClassLabel = l := by
  unfold ClassLabelChangeFilter.filter
  split
  · rfl
  · rename_i h
    simp only [ne_eq, not_not] at h
    exact h.symm

theorem ClassLabelChangeFilter.filter_output (f : ClassLabelChangeFilter) (l : Nat) :
    (f.filter l).2 = if l ≠ f.filteredClassLabel then l else 0 := by
  unfold ClassLabelChangeFilter.filter
  split <;> simp_all

theorem ClassLabelChangeFilter.length_filterStream (labels : List Nat) :
    ∀ f : ClassLabelChangeFilter, (f.filterStream labels).length = labels.length := by
  induction labels with
  | nil => intro f; rfl
  | cons l ls ih =>
    intro f
    simp [ClassLabelChangeFilter.filterStream, ih]

theorem ClassLabelChangeFilter.filterStream_getD (labels : List Nat) :
    ∀ (f : ClassLabelChangeFilter) (i : Nat), i < labels.length →
      (f.filterStream labels).getD i 0
        = if labels.getD i 0 ≠ (if i = 0 then f.filteredClassLabel else labels.getD (i - 1) 0)
          then labels.getD i 0 else 0 := by
  induction labels with
  | nil => intro f i hi; exact absurd hi (Nat.not_lt_zero i)
  | cons l ls ih =>
    intro f i hi
    cases i with
    | zero =>
      simp only [ClassLabelChangeFilter.filterStream, List.getD_cons_zero, if_true]
      exact ClassLabelChangeFilter.filter_output f l
    | succ k =>
      have hk : k < ls.length := Nat.lt_of_succ_lt_succ hi
      simp only [ClassLabelChangeFilter.filterStream, List.getD_cons_succ]
      rw [ih (f.filter l).1 k hk, ClassLabelChangeFilter.filter_label]
      cases k with
      | zero => simp
      | succ m => simp

/-- C14: for every stream of predicted class labels fed one at a time to `filter` on a freshly
initialised filter, there is one output per label, and the output for a label is that label
when it is the first label or differs from the previously fed label, and 0 otherwise; the
stream `{1,1,1,1,2,2,2,2,3,3}` yields `{1,0,0,0,2,0,0,0,3,0}`. -/
theorem ClassLabelChangeFilter.filterStream_change (labels : List Nat) :
    (ClassLabelChangeFilter.init.filterStream labels).length = labels.length ∧
    (∀ i, i < labels.length →
      (ClassLabelChangeFilter.init.filterStream labels).getD i 0
        = if i = 0 ∨ labels.getD i 0 ≠ labels.getD (i - 1) 0 then labels.getD i 0 else 0) ∧
    ClassLabelChangeFilter.init.filterStream [1, 1, 1, 1, 2, 2, 2, 2, 3, 3]
      = [1, 0, 0, 0, 2, 0, 0, 0, 3, 0] := by
  refine ⟨ClassLabelChangeFilter.length_filterStream labels _, ?_, by decide⟩
  intro i hi
  rw [ClassLabelChangeFilter.filterStream_getD labels _ i hi]
  by_cases h0 : i = 0
  · subst h0
    simp only [if_true, true_or, ClassLabelChangeFilter.init]
    generalize labels.getD 0 0 = v
    by_cases hv : v = 0
    · simp [hv]
    · simp [hv]
  · simp [h0]

theorem ClassLabelChangeFilter.filterStream_change_witness :
    4 < ([1, 1, 1, 1, 2, 2] : List Nat).length ∧
    3 < ([1, 1, 1, 1, 2, 2] : List Nat).length ∧
    (ClassLabelChangeFilter.init.filterStream [1, 1, 1, 1, 2, 2]).getD 4 0 = 2 ∧
    (ClassLabelChangeFilter.init.filterStream [1, 1, 1, 1, 2, 2]).getD 3 0 = 0 :=
  ⟨by decide, by decide,
    (ClassLabelChangeFilter.filterStream_change [1, 1, 1, 1, 2, 2]).2.1 4 (by decide),
    (ClassLabelChangeFilter.filterStream_change [1, 1, 1, 1, 2, 2]).2.1 3 (by decide)⟩

/-! ## Further properties of `fire` -/

theorem Neuron.weightedSum_congr [LinearOrderedField α] (n : Neuron R α) (a b : List α)
    (hab : a.take n.numInputs = b.take n.numInputs) : n.weightedSum a = n.weightedSum b := by
  unfold Neuron.weightedSum
  congr 1
  refine Finset.sum_congr rfl (fun i hi => ?_)
  have hlt : i < n.numInputs := Finset.mem_range.mp hi
  have e : a.getD i 0 = b.getD i 0 := by
    have h1 : (a.take n.numInputs)[i]? = (b.take n.numInputs)[i]? := by rw [hab]
    rw [List.getElem?_take_of_lt hlt, List.getElem?_take_of_lt hlt] at h1
    simp only [List.getD_eq_getElem?_getD, h1]
  rw [e]

theorem Neuron.weightedSum_clear [LinearOrderedField α] (s : Neuron R α) (inputs : List α) :
    (Neuron.clear s).weightedSum inputs = 0 := by
  simp [Neuron.weightedSum, Neuron.clear]

theorem Neuron.weightedSum_ctor [LinearOrderedField α] (r : R) (inputs : List α) :
    (Neuron.ctor r : Neuron R α).weightedSum inputs = 0 := by
  simp [Neuron.weightedSum, Neuron.ctor]

/-- C15: `fire` makes no dimension check and reads only the first `numInputs` entries of its
argument: for a neuron with `len(weights) == numInputs` and two input vectors of length at
least `numInputs` that agree on their first `numInputs` entries, `fire` returns a value for
each (extra trailing entries are not rejected) and the two values are the same. -/
theorem Neuron.fire_ignores_trailing [LinearOrderedField α] (exp : α → α) (n : Neuron R α)
    (a b : List α) (hw : n.weights.length = n.numInputs)
    (ha : n.numInputs ≤ a.length) (hb : n.numInputs ≤ b.length)
    (hab : a.take n.numInputs = b.take n.numInputs) :
    ∃ v, n.fire exp a = some v ∧ n.fire exp b = some v := by
  refine ⟨_, Neuron.fire_eq exp n a ha (le_of_eq hw.symm), ?_⟩
  rw [Neuron.fire_eq exp n b hb (le_of_eq hw.symm), Neuron.weightedSum_congr n a b hab]

theorem Neuron.fire_ignores_trailing_witness :
    sampleLinear.weights.length = sampleLinear.numInputs ∧
    sampleLinear.numInputs ≤ ([5, 6] : List ℚ).length ∧
    sampleLinear.numInputs ≤ ([5, 6, 7, 8] : List ℚ).length ∧
    ([5, 6] : List ℚ).take sampleLinear.numInputs
      = ([5, 6, 7, 8] : List ℚ).take sampleLinear.numInputs ∧
    ∃ v, sampleLinear.fire expStub [5, 6] = some v ∧
      sampleLinear.fire expStub [5, 6, 7, 8] = some v :=
  ⟨rfl, by decide, by decide, rfl,
    Neuron.fire_ignores_trailing expStub sampleLinear [5, 6] [5, 6, 7, 8] rfl (by decide)
      (by decide) rfl⟩

/-- C16: for a SIGMOID neuron the activation is monotone non-decreasing in the pre-activation
over the whole real line, across the clamp thresholds at -45 and 45 included: for
`y1 <= y2` the activation of `y1` is at most the activation of `y2`; so `fire` on two input
vectors returns values ordered as their pre-activations. -/
theorem Neuron.activate_sigmoid_monotone (n : Neuron R ℝ)
    (hk : n.activationFunction = SIGMOID) :
    (∀ y1 y2 : ℝ, y1 ≤ y2 → n.activate Real.exp y1 ≤ n.activate Real.exp y2) ∧
    (∀ a b : List ℝ, n.weights.length = n.numInputs → a.length = n.numInputs →
      b.length = n.numInputs → n.weightedSum a ≤ n.weightedSum b →
      ∃ va vb, n.fire Real.exp a = some va ∧ n.fire Real.exp b = some vb ∧ va ≤ vb) := by
  have mono : ∀ y1 y2 : ℝ, y1 ≤ y2 → n.activate Real.exp y1 ≤ n.activate Real.exp y2 := by
    intro y1 y2 h
    rw [Neuron.activate_sigmoid Real.exp n y1 hk, Neuron.activate_sigmoid Real.exp n y2 hk]
    have e1 := Real.exp_pos (-y1)
    have e2 := Real.exp_pos (-y2)
    have hle : Real.exp (-y2) ≤ Real.exp (-y1) := Real.exp_le_exp.mpr (neg_le_neg h)
    have p1 : (0 : ℝ) ≤ 1 / (1 + Real.exp (-y2)) := by positivity
    have p2 : 1 / (1 + Real.exp (-y1)) ≤ (1 : ℝ) := by
      rw [div_le_one (by linarith)]
      linarith
    have p3 : 1 / (1 + Real.exp (-y1)) ≤ 1 / (1 + Real.exp (-y2)) :=
      one_div_le_one_div_of_le (by linarith) (by linarith)
    split_ifs <;> linarith
  refine ⟨mono, fun a b hw ha hb hab => ?_⟩
  exact ⟨_, _, Neuron.fire_eq Real.exp n a (le_of_eq ha.symm) (le_of_eq hw.symm),
    Neuron.fire_eq Real.exp n b (le_of_eq hb.symm) (le_of_eq hw.symm), mono _ _ hab⟩

theorem Neuron.activate_sigmoid_monotone_witness :
    (sampleNeuron SIGMOID : Neuron Unit ℝ).activationFunction = SIGMOID ∧
    (-46 : ℝ) ≤ 45 ∧
    (sampleNeuron SIGMOID : Neuron Unit ℝ).activate Real.exp (-46)
      ≤ (sampleNeuron SIGMOID : Neuron Unit ℝ).activate Real.exp 45 :=
  ⟨rfl, by norm_num,
    (Neuron.activate_sigmoid_monotone (sampleNeuron SIGMOID) rfl).1 (-46) 45 (by norm_num)⟩

/-- C17: after `clear()`, and likewise on a freshly constructed neuron, `fire` returns the
activation of a zero pre-activation for every input vector, whatever its length and entries:
0 for LINEAR, 0.5 for SIGMOID and 0 for BIPOLAR_SIGMOID (a fresh neuron is LINEAR). -/
theorem Neuron.fire_after_clear (s : Neuron R ℝ) (r : R) (inputs : List ℝ) :
    (s.activationFunction = LINEAR → (Neuron.clear s).fire Real.exp inputs = some 0) ∧
    (s.activationFunction = SIGMOID → (Neuron.clear s).fire Real.exp inputs = some 0.5) ∧
    (s.activationFunction = BIPOLAR_SIGMOID →
      (Neuron.clear s).fire Real.exp inputs = some 0) ∧
    (Neuron.ctor r : Neuron R ℝ).fire Real.exp inputs = some 0 := by
  have hc : (Neuron.clear s).fire Real.exp inputs
      = some ((Neuron.clear s).activate Real.exp 0) := by
    rw [Neuron.fire_eq Real.exp (Neuron.clear s) inputs (Nat.zero_le _) (Nat.zero_le _),
      Neuron.weightedSum_clear]
  refine ⟨fun hk => ?_, fun hk => ?_, fun hk => ?_, ?_⟩
  · rw [hc, Neuron.activate_linear Real.exp (Neuron.clear s) _ hk]
  · rw [hc, Neuron.activate_sigmoid Real.exp (Neuron.clear s) _ hk]
    norm_num
  · rw [hc, Neuron.activate_bipolar Real.exp (Neuron.clear s) _ hk]
    norm_num
  · rw [Neuron.fire_eq Real.exp (Neuron.ctor r) inputs (Nat.zero_le _) (Nat.zero_le _),
      Neuron.weightedSum_ctor, Neuron.activate_linear Real.exp _ _ rfl]

theorem Neuron.fire_after_clear_witness :
    (sampleNeuron SIGMOID : Neuron Unit ℝ).activationFunction = SIGMOID ∧
    (Neuron.clear (sampleNeuron SIGMOID : Neuron Unit ℝ)).fire Real.exp [5, 6, 7] = some 0.5 ∧
    (Neuron.clear (sampleNeuron BIPOLAR_SIGMOID : Neuron Unit ℝ)).fire Real.exp [] = some 0 ∧
    (Neuron.clear (sampleNeuron LINEAR : Neuron Unit ℝ)).fire Real.exp [9] = some 0 :=
  ⟨rfl, (Neuron.fire_after_clear (sampleNeuron SIGMOID) () [5, 6, 7]).2.1 rfl,
    (Neuron.fire_after_clear (sampleNeuron BIPOLAR_SIGMOID) () []).2.2.1 rfl,
    (Neuron.fire_after_clear (sampleNeuron LINEAR) () [9]).1 rfl⟩



/-! ## `fire` with the range limits of `double` -/

theorem maxDouble_ge_two [LinearOrderedField α] : (2 : α) ≤ maxDouble := by
  unfold maxDouble
  norm_num

theorem Dbl.ofExact_fin [LinearOrderedField α] (x : α) (hlo : -maxDouble ≤ x)
    (hhi : x ≤ maxDouble) : Dbl.ofExact x = Dbl.fin x := by
  unfold Dbl.ofExact
  rw [if_neg (not_lt.mpr hhi), if_neg (not_lt.mpr hlo)]

theorem Dbl.ofExact_nonneg [LinearOrderedField α] (x : α) (hx : 0 ≤ x) :
    Dbl.ofExact x = Dbl.fin x ∨ Dbl.ofExact x = Dbl.pinf := by
  have hm : (2 : α) ≤ maxDouble := maxDouble_ge_two
  unfold Dbl.ofExact
  by_cases h : maxDouble < x
  · right
    rw [if_pos h]
  · left
    rw [if_neg h, if_neg (not_lt.mpr (by linarith))]

theorem Neuron.fireLoopD_some [LinearOrderedField α] (n : Neuron R (Dbl α))
    (inputs : List (Dbl α)) (k : Nat) (hi : k ≤ inputs.length) (hw : k ≤ n.weights.length) :
    ∃ y, (List.range k).foldlM (n.fireStepD inputs) (Dbl.fin 0) = some y := by
  induction k with
  | zero => exact ⟨_, rfl⟩
  | succ k ih =>
    have hi1 : k < inputs.length := hi
    have hw1 : k < n.weights.length := hw
    obtain ⟨y, hy⟩ := ih (Nat.le_of_lt hi1) (Nat.le_of_lt hw1)
    rw [List.range_succ, List.foldlM_append, hy]
    simp [Neuron.fireStepD, List.getElem?_eq_getElem hi1, List.getElem?_eq_getElem hw1]

theorem Neuron.preActivationD_some [LinearOrderedField α] (n : Neuron R (Dbl α))
    (inputs : List (Dbl α)) (hi : n.numInputs ≤ inputs.length)
    (hw : n.numInputs ≤ n.weights.length) : ∃ y, n.preActivationD inputs = some y := by
  obtain ⟨y, hy⟩ := Neuron.fireLoopD_some n inputs n.numInputs hi hw
  exact ⟨Dbl.add y n.bias, by simp [Neuron.preActivationD, hy]⟩

theorem Dbl.logistic_range [LinearOrderedField α] (e : α) (he : 0 ≤ e) (E : Dbl α)
    (hE : E = Dbl.fin e ∨ E = Dbl.pinf) (c : α) (hc0 : 0 < c) (hc : c ≤ 2) :
    ∃ q, Dbl.div (Dbl.fin c) (Dbl.add (Dbl.fin 1) E) = Dbl.fin q ∧ 0 ≤ q ∧ q ≤ c := by
  have hm : (2 : α) ≤ maxDouble := maxDouble_ge_two
  have hpinf : ∃ q, Dbl.div (Dbl.fin c) (Dbl.pinf : Dbl α) = Dbl.fin q ∧ 0 ≤ q ∧ q ≤ c :=
    ⟨0, rfl, le_refl 0, hc0.le⟩
  rcases hE with hE | hE
  · subst hE
    have hs : Dbl.add (Dbl.fin 1) (Dbl.fin e) = Dbl.ofExact (1 + e) := rfl
    rw [hs]
    rcases Dbl.ofExact_nonneg (1 + e) (by linarith) with h | h
    · rw [h]
      have hne : (1 + e) ≠ 0 := by linarith
      have hpos : 0 < 1 + e := by linarith
      have hq0 : 0 ≤ c / (1 + e) := by positivity
      have hq1 : c / (1 + e) ≤ c := by
        rw [div_le_iff₀ hpos]
        nlinarith
      have hd : Dbl.div (Dbl.fin c) (Dbl.fin (1 + e)) = Dbl.ofExact (c / (1 + e)) := by
        simp [Dbl.div, hne]
      rw [hd, Dbl.ofExact_fin _ (by linarith) (by linarith)]
      exact ⟨_, rfl, hq0, hq1⟩
    · rw [h]
      exact hpinf
  · subst hE
    exact hpinf

theorem Dbl.exp_cases [LinearOrderedField α] (exp : α → α) (hexp : ∀ x, 0 < exp x)
    (t : Dbl α) (ht : t ≠ Dbl.nan) :
    ∃ e, 0 ≤ e ∧ (Dbl.exp exp t = Dbl.fin e ∨ Dbl.exp exp t = Dbl.pinf) := by
  cases t with
  | fin x =>
    exact ⟨exp x, (hexp x).le, Dbl.ofExact_nonneg _ (hexp x).le⟩
  | pinf => exact ⟨0, le_refl 0, Or.inr rfl⟩
  | ninf => exact ⟨0, le_refl 0, Or.inl rfl⟩
  | nan => exact absurd rfl ht

theorem Dbl.ofExact_ne_nan [LinearOrderedField α] (x : α) : Dbl.ofExact x ≠ Dbl.nan := by
  unfold Dbl.ofExact
  split_ifs <;> simp

theorem Neuron.activateD_sigmoid [LinearOrderedField α] (exp : α → α) (n : Neuron R (Dbl α))
    (y : Dbl α) (hk : n.activationFunction = SIGMOID) :
    n.activateD exp y
      = if Dbl.lt y (Dbl.fin (-45)) then Dbl.fin 0
        else if Dbl.lt (Dbl.fin 45) y then Dbl.fin 1
        else Dbl.div (Dbl.fin 1) (Dbl.add (Dbl.fin 1) (Dbl.exp exp (Dbl.neg y))) := by
  simp [Neuron.activateD, hk, SIGMOID, LINEAR, lit_one, lit_fortyfive]

theorem Neuron.activateD_bipolar [LinearOrderedField α] (exp : α → α) (n : Neuron R (Dbl α))
    (y : Dbl α) (hk : n.activationFunction = BIPOLAR_SIGMOID) :
    n.activateD exp y
      = if Dbl.lt y (Dbl.fin (-45)) then Dbl.fin 0
        else if Dbl.lt (Dbl.fin 45) y then Dbl.fin 1
        else Dbl.sub
          (Dbl.div (Dbl.fin 2) (Dbl.add (Dbl.fin 1) (Dbl.exp exp (Dbl.mul (Dbl.neg n.gamma) y))))
          (Dbl.fin 1) := by
  simp [Neuron.activateD, hk, BIPOLAR_SIGMOID, SIGMOID, LINEAR, lit_one, lit_fortyfive]

theorem Neuron.activateD_sigmoid_range [LinearOrderedField α] (exp : α → α)
    (hexp : ∀ x, 0 < exp x) (n : Neuron R (Dbl α)) (y : Dbl α)
    (hk : n.activationFunction = SIGMOID) (hy : y ≠ Dbl.nan) :
    ∃ q, n.activateD exp y = Dbl.fin q ∧ 0 ≤ q ∧ q ≤ 1 := by
  rw [Neuron.activateD_sigmoid exp n y hk]
  split_ifs
  · exact ⟨0, rfl, le_refl 0, zero_le_one⟩
  · exact ⟨1, rfl, zero_le_one, le_refl 1⟩
  · have hneg : Dbl.neg y ≠ Dbl.nan := by
      cases y <;> simp [Dbl.neg] at hy ⊢
    obtain ⟨e, he, hE⟩ := Dbl.exp_cases exp hexp (Dbl.neg y) hneg
    exact Dbl.logistic_range e he _ hE 1 zero_lt_one one_le_two

theorem Neuron.activateD_bipolar_range [LinearOrderedField α] (exp : α → α)
    (hexp : ∀ x, 0 < exp x) (n : Neuron R (Dbl α)) (y : Dbl α) (g : α)
    (hk : n.activationFunction = BIPOLAR_SIGMOID) (hg : n.gamma = Dbl.fin g)
    (hy : y ≠ Dbl.nan) :
    ∃ q, n.activateD exp y = Dbl.fin q ∧ -1 ≤ q ∧ q ≤ 1 := by
  have hm : (2 : α) ≤ maxDouble := maxDouble_ge_two
  rw [Neuron.activateD_bipolar exp n y hk]
  split_ifs with h1 h2
  · exact ⟨0, rfl, by norm_num, zero_le_one⟩
  · exact ⟨1, rfl, by norm_num, le_refl 1⟩
  · have ht : Dbl.mul (Dbl.neg n.gamma) y ≠ Dbl.nan := by
      rw [hg]
      cases y with
      | fin x => exact Dbl.ofExact_ne_nan _
      | pinf => exact absurd rfl h2
      | ninf => exact absurd rfl h1
      | nan => exact absurd rfl hy
    obtain ⟨e, he, hE⟩ := Dbl.exp_cases exp hexp _ ht
    obtain ⟨q, hq, hq0, hq2⟩ := Dbl.logistic_range e he _ hE 2 zero_lt_two (le_refl 2)
    rw [hq]
    have hs : Dbl.sub (Dbl.fin q) (Dbl.fin 1) = Dbl.ofExact (q + -1) := rfl
    rw [hs, Dbl.ofExact_fin _ (by linarith) (by linarith)]
    exact ⟨_, rfl, by linarith, by linarith⟩

theorem sampleNeuronD_preActivation (kind : Nat) :
    (sampleNeuronD kind : Neuron Unit (Dbl ℝ)).preActivationD [Dbl.fin 1, Dbl.fin 2]
      = some (Dbl.fin 12) := by
  simp [Neuron.preActivationD, Neuron.fireStepD, sampleNeuronD, List.range_succ, Dbl.add,
    Dbl.mul, Dbl.ofExact, maxDouble]
  norm_num

theorem steepNeuron_preActivation (kind : Nat) :
    (steepNeuron kind : Neuron Unit (Dbl ℝ)).preActivationD
        [Dbl.fin (2 ^ 1000), Dbl.fin (2 ^ 1000)]
      = some Dbl.nan := by
  simp [Neuron.preActivationD, Neuron.fireStepD, steepNeuron, List.range_succ, Dbl.add,
    Dbl.mul, Dbl.ofExact, maxDouble]
  norm_num [Dbl.add]

theorem steepNeuron_inRange :
    (2 : ℝ) ^ 1000 ≤ maxDouble ∧ (2 : ℝ) ^ 30 ≤ maxDouble ∧ -maxDouble ≤ -(2 : ℝ) ^ 30 := by
  unfold maxDouble
  norm_num

/-- C4: on `double` with its range limits, for a SIGMOID neuron (any weights and bias) and
an input vector of length `numInputs`, `fire` computes a pre-activation, and whenever that
pre-activation is not NaN the value `fire` returns is a finite number in the closed interval
`[0, 1]`. Here `exp` is any positive function, such as the real exponential. -/
theorem Neuron.fireD_sigmoid_range [LinearOrderedField α] (exp : α → α)
    (hexp : ∀ x, 0 < exp x) (n : Neuron R (Dbl α)) (inputs : List (Dbl α))
    (hk : n.activationFunction = SIGMOID)
    (hi : inputs.length = n.numInputs) (hw : n.weights.length = n.numInputs) :
    (∃ y, n.preActivationD inputs = some y) ∧
    ∀ y, n.preActivationD inputs = some y → y ≠ Dbl.nan →
      ∃ q, n.fireD exp inputs = some (Dbl.fin q) ∧ 0 ≤ q ∧ q ≤ 1 := by
  refine ⟨Neuron.preActivationD_some n inputs (le_of_eq hi.symm) (le_of_eq hw.symm), ?_⟩
  intro y hy hnan
  obtain ⟨q, hq, h0, h1⟩ := Neuron.activateD_sigmoid_range exp hexp n y hk hnan
  exact ⟨q, by simp [Neuron.fireD, hy, hq], h0, h1⟩

theorem Neuron.fireD_sigmoid_range_witness :
    (sampleNeuronD SIGMOID : Neuron Unit (Dbl ℝ)).activationFunction = SIGMOID ∧
    ([Dbl.fin 1, Dbl.fin 2] : List (Dbl ℝ)).length
      = (sampleNeuronD SIGMOID : Neuron Unit (Dbl ℝ)).numInputs ∧
    (sampleNeuronD SIGMOID : Neuron Unit (Dbl ℝ)).weights.length
      = (sampleNeuronD SIGMOID : Neuron Unit (Dbl ℝ)).numInputs ∧
    (sampleNeuronD SIGMOID : Neuron Unit (Dbl ℝ)).preActivationD [Dbl.fin 1, Dbl.fin 2]
      = some (Dbl.fin 12) ∧
    (Dbl.fin 12 : Dbl ℝ) ≠ Dbl.nan ∧
    ∃ q, (sampleNeuronD SIGMOID : Neuron Unit (Dbl ℝ)).fireD Real.exp [Dbl.fin 1, Dbl.fin 2]
      = some (Dbl.fin q) ∧ 0 ≤ q ∧ q ≤ 1 :=
  ⟨rfl, rfl, rfl, sampleNeuronD_preActivation SIGMOID, by simp,
    (Neuron.fireD_sigmoid_range Real.exp Real.exp_pos (sampleNeuronD SIGMOID)
      [Dbl.fin 1, Dbl.fin 2] rfl rfl rfl).2 (Dbl.fin 12)
      (sampleNeuronD_preActivation SIGMOID) (by simp)⟩

/-- C4, as stated for every input vector with finite entries: the SIGMOID neuron with the
finite weights `2^30` and `-2^30` and bias 0, on the finite inputs `2^1000` and `2^1000`, has
the products plus and minus infinity, so its pre-activation is NaN and `fire` returns NaN,
which is not in `[0, 1]`. -/
theorem Neuron.fireD_sigmoid_overflow :
    (2 : ℝ) ^ 1000 ≤ maxDouble ∧ (2 : ℝ) ^ 30 ≤ maxDouble ∧ -maxDouble ≤ -(2 : ℝ) ^ 30 ∧
    (∀ x ∈ ([Dbl.fin (2 ^ 1000), Dbl.fin (2 ^ 1000)] : List (Dbl ℝ)), x.isFinite = true) ∧
    (∀ w ∈ (steepNeuron SIGMOID : Neuron Unit (Dbl ℝ)).weights, w.isFinite = true) ∧
    (steepNeuron SIGMOID : Neuron Unit (Dbl ℝ)).bias.isFinite = true ∧
    ([Dbl.fin (2 ^ 1000), Dbl.fin (2 ^ 1000)] : List (Dbl ℝ)).length
      = (steepNeuron SIGMOID : Neuron Unit (Dbl ℝ)).numInputs ∧
    (steepNeuron SIGMOID : Neuron Unit (Dbl ℝ)).weights.length
      = (steepNeuron SIGMOID : Neuron Unit (Dbl ℝ)).numInputs ∧
    (steepNeuron SIGMOID : Neuron Unit (Dbl ℝ)).fireD Real.exp
        [Dbl.fin (2 ^ 1000), Dbl.fin (2 ^ 1000)]
      = some Dbl.nan := by
  refine ⟨steepNeuron_inRange.1, steepNeuron_inRange.2.1, steepNeuron_inRange.2.2, ?_, ?_,
    rfl, rfl, rfl, ?_⟩
  · intro x hx
    simp only [List.mem_cons, List.mem_singleton, List.not_mem_nil, or_false, or_self] at hx
    rw [hx]
    rfl
  · intro w hw
    simp only [steepNeuron, List.mem_cons, List.mem_singleton, List.not_mem_nil, or_false] at hw
    rcases hw with hw | hw <;> rw [hw] <;> rfl
  · rw [Neuron.fireD, steepNeuron_preActivation, Option.map_some',
      Neuron.activateD_sigmoid Real.exp _ _ rfl]
    rfl

/-- C5: on `double` with its range limits, for a BIPOLAR_SIGMOID neuron (any weights and
bias, any finite gamma) and an input vector of length `numInputs`, `fire` computes a
pre-activation, and whenever that pre-activation is not NaN the value `fire` returns is a
finite number in the closed interval `[-1, 1]`. Here `exp` is any positive function, such as
the real exponential. -/
theorem Neuron.fireD_bipolar_range [LinearOrderedField α] (exp : α → α)
    (hexp : ∀ x, 0 < exp x) (n : Neuron R (Dbl α)) (inputs : List (Dbl α)) (g : α)
    (hk : n.activationFunction = BIPOLAR_SIGMOID) (hg : n.gamma = Dbl.fin g)
    (hi : inputs.length = n.numInputs) (hw : n.weights.length = n.numInputs) :
    (∃ y, n.preActivationD inputs = some y) ∧
    ∀ y, n.preActivationD inputs = some y → y ≠ Dbl.nan →
      ∃ q, n.fireD exp inputs = some (Dbl.fin q) ∧ -1 ≤ q ∧ q ≤ 1 := by
  refine ⟨Neuron.preActivationD_some n inputs (le_of_eq hi.symm) (le_of_eq hw.symm), ?_⟩
  intro y hy hnan
  obtain ⟨q, hq, h0, h1⟩ := Neuron.activateD_bipolar_range exp hexp n y g hk hg hnan
  exact ⟨q, by simp [Neuron.fireD, hy, hq], h0, h1⟩

theorem Neuron.fireD_bipolar_range_witness :
    (sampleNeuronD BIPOLAR_SIGMOID : Neuron Unit (Dbl ℝ)).activationFunction
      = BIPOLAR_SIGMOID ∧
    (sampleNeuronD BIPOLAR_SIGMOID : Neuron Unit (Dbl ℝ)).gamma = Dbl.fin 2 ∧
    ([Dbl.fin 1, Dbl.fin 2] : List (Dbl ℝ)).length
      = (sampleNeuronD BIPOLAR_SIGMOID : Neuron Unit (Dbl ℝ)).numInputs ∧
    (sampleNeuronD BIPOLAR_SIGMOID : Neuron Unit (Dbl ℝ)).weights.length
      = (sampleNeuronD BIPOLAR_SIGMOID : Neuron Unit (Dbl ℝ)).numInputs ∧
    (sampleNeuronD BIPOLAR_SIGMOID : Neuron Unit (Dbl ℝ)).preActivationD
        [Dbl.fin 1, Dbl.fin 2]
      = some (Dbl.fin 12) ∧
    (Dbl.fin 12 : Dbl ℝ) ≠ Dbl.nan ∧
    ∃ q, (sampleNeuronD BIPOLAR_SIGMOID : Neuron Unit (Dbl ℝ)).fireD Real.exp
        [Dbl.fin 1, Dbl.fin 2]
      = some (Dbl.fin q) ∧ -1 ≤ q ∧ q ≤ 1 :=
  ⟨rfl, rfl, rfl, rfl, sampleNeuronD_preActivation BIPOLAR_SIGMOID, by simp,
    (Neuron.fireD_bipolar_range Real.exp Real.exp_pos (sampleNeuronD BIPOLAR_SIGMOID)
      [Dbl.fin 1, Dbl.fin 2] 2 rfl rfl rfl rfl).2 (Dbl.fin 12)
      (sampleNeuronD_preActivation BIPOLAR_SIGMOID) (by simp)⟩

/-- C5, as stated for every input vector with finite entries: the BIPOLAR_SIGMOID neuron
with the finite weights `2^30` and `-2^30`, bias 0 and gamma 2, on the finite inputs `2^1000`
and `2^1000`, has the products plus and minus infinity, so its pre-activation is NaN and
`fire` returns NaN, which is not in `[-1, 1]`. -/
theorem Neuron.fireD_bipolar_overflow :
    (2 : ℝ) ^ 1000 ≤ maxDouble ∧ (2 : ℝ) ^ 30 ≤ maxDouble ∧ -maxDouble ≤ -(2 : ℝ) ^ 30 ∧
    (∀ x ∈ ([Dbl.fin (2 ^ 1000), Dbl.fin (2 ^ 1000)] : List (Dbl ℝ)), x.isFinite = true) ∧
    (∀ w ∈ (steepNeuron BIPOLAR_SIGMOID : Neuron Unit (Dbl ℝ)).weights, w.isFinite = true) ∧
    (steepNeuron BIPOLAR_SIGMOID : Neuron Unit (Dbl ℝ)).bias.isFinite = true ∧
    (steepNeuron BIPOLAR_SIGMOID : Neuron Unit (Dbl ℝ)).gamma = Dbl.fin 2 ∧
    ([Dbl.fin (2 ^ 1000), Dbl.fin (2 ^ 1000)] : List (Dbl ℝ)).length
      = (steepNeuron BIPOLAR_SIGMOID : Neuron Unit (Dbl ℝ)).numInputs ∧
    (steepNeuron BIPOLAR_SIGMOID : Neuron Unit (Dbl ℝ)).weights.length
      = (steepNeuron BIPOLAR_SIGMOID : Neuron Unit (Dbl ℝ)).numInputs ∧
    (steepNeuron BIPOLAR_SIGMOID : Neuron Unit (Dbl ℝ)).fireD Real.exp
        [Dbl.fin (2 ^ 1000), Dbl.fin (2 ^ 1000)]
      = some Dbl.nan := by
  refine ⟨steepNeuron_inRange.1, steepNeuron_inRange.2.1, steepNeuron_inRange.2.2, ?_, ?_,
    rfl, rfl, rfl, rfl, ?_⟩
  · intro x hx
    simp only [List.mem_cons, List.mem_singleton, List.not_mem_nil, or_false, or_self] at hx
    rw [hx]
    rfl
  · intro w hw
    simp only [steepNeuron, List.mem_cons, List.mem_singleton, List.not_mem_nil, or_false] at hw
    rcases hw with hw | hw <;> rw [hw] <;> rfl
  · rw [Neuron.fireD, steepNeuron_preActivation, Option.map_some',
      Neuron.activateD_bipolar Real.exp _ _ rfl]
    rfl

end GRT
